import Mathlib

/-!
Verification of the draughts/checkers engine core: board model, Zobrist
hashing, make/unmake, move generation, terminal detection, evaluator and
search-driver control flow.  Definitions mirror the Python sources in
`backend/core/board.py`, `backend/core/pieces.py`, `backend/core/hash.py`,
`backend/ai/huistic.py`, `backend/ai/minimax.py` and `backend/ai/mcts.py`.
-/

namespace Checkers

/-- Piece colors (`Color` enum in `pieces.py`). -/
inductive Color where
  | white
  | black
deriving DecidableEq, Repr

/-- The switch between colors (`_opponent` in the sources). -/
def Color.opponent : Color → Color
  | .white => .black
  | .black => .white

/-- A piece: color, king flag, recorded coordinates and stable identity
(`Piece` with its `Man`/`King` subclasses collapse to the `isKing` flag). -/
structure PieceL where
  color : Color
  isKing : Bool
  row : ℤ
  col : ℤ
  pid : ℤ
deriving DecidableEq, Repr

/-- A move: start coordinate, path of landing squares, captured squares
(`Move` dataclass in `move.py`). -/
structure Move where
  start : ℤ × ℤ
  steps : List (ℤ × ℤ)
  captures : List (ℤ × ℤ)
deriving DecidableEq, Repr

/-- `Move.is_capture`: a move is a capture iff its captures list is nonempty. -/
def Move.isCapture (m : Move) : Bool := !m.captures.isEmpty

/-- `Move.end`: last landing square, or the start for an empty path. -/
def Move.endPos (m : Move) : ℤ × ℤ := m.steps.getLast?.getD m.start

/-- The dense square grid: a list of rows, each a list of optional pieces
(`Board.board` in `board.py`). -/
abbrev Grid := List (List (Option PieceL))

/-- Raw cell read `board[row][col]` (no board-size check; out-of-range reads
give `none`). -/
def getCell (g : Grid) (r c : ℤ) : Option PieceL :=
  if 0 ≤ r ∧ 0 ≤ c then ((g[r.toNat]?).bind fun row => row[c.toNat]?).join
  else none

/-- Raw cell write `board[row][col] = v`; out-of-range writes are inert
(every write in the modelled code paths is bounds-checked first). -/
def setCell (g : Grid) (r c : ℤ) (v : Option PieceL) : Grid :=
  if 0 ≤ r ∧ 0 ≤ c then g.set r.toNat (((g[r.toNat]?).getD []).set c.toNat v)
  else g

/-- The board: grid, side length, side to move and incrementally maintained
Zobrist hash (`Board` in `board.py`; the best-effort move cache is modelled
by its compute path). -/
structure BoardL where
  grid : Grid
  boardSize : ℤ
  turn : Color
  zobrist : ℕ
deriving DecidableEq, Repr

/-- `Board._is_within_bounds`. -/
def isWithinBounds (b : BoardL) (r c : ℤ) : Bool :=
  decide (0 ≤ r ∧ r < b.boardSize ∧ 0 ≤ c ∧ c < b.boardSize)

/-- `Board.getPiece`: bounds-checked read. -/
def getPiece (b : BoardL) (r c : ℤ) : Option PieceL :=
  if isWithinBounds b r c then getCell b.grid r c else none

/-! ### Zobrist hashing (`hash.py`)

The key tables are produced by a seeded PRNG; their concrete values never
matter for the верified properties, so the tables are a parameter. -/

/-- A Zobrist key assignment: one 64-bit key per (board size, square,
piece variant) and one per side to move (`_table_for_size` / `_TURN_KEYS`). -/
structure ZobristKeys where
  pieceKey : ℤ → ℤ → ℤ → Color → Bool → ℕ
  turnKey : Color → ℕ

/-- `zobrist_piece_key(board_size, row, col, piece)`: the key depends on the
square and on the piece's color and kind only. -/
def zobrist_piece_key (keys : ZobristKeys) (boardSize r c : ℤ) (p : PieceL) : ℕ :=
  keys.pieceKey boardSize r c p.color p.isKing

/-- Key contributed by a cell: empty cells contribute the XOR identity. -/
def keyOfCell (keys : ZobristKeys) (n r c : ℤ) : Option PieceL → ℕ
  | none => 0
  | some p => zobrist_piece_key keys n r c p

/-- XOR of `f 0, …, f (n-1)`. -/
def foldXor : ℕ → (ℕ → ℕ) → ℕ
  | 0, _ => 0
  | n + 1, f => foldXor n f ^^^ f n

/-- XOR of the occupant keys over the `n × n` scan of the grid. -/
def gridHash (keys : ZobristKeys) (n : ℤ) (g : Grid) : ℕ :=
  foldXor n.toNat fun r => foldXor n.toNat fun c =>
    keyOfCell keys n (r : ℤ) (c : ℤ) (getCell g (r : ℤ) (c : ℤ))

/-- `compute_board_hash`: XOR of all occupant keys and the turn key. -/
def compute_board_hash (keys : ZobristKeys) (b : BoardL) : ℕ :=
  keys.turnKey b.turn ^^^ gridHash keys b.boardSize b.grid

/-- Grid shape discipline: an `n × n` list-of-lists, as built by
`Board.__init__` / `Board.empty`. -/
def gridDims (g : Grid) (n : ℤ) : Prop :=
  g.length = n.toNat ∧ ∀ row ∈ g, row.length = n.toNat

/-- Executable coherence check: every occupied cell holds a piece whose
recorded coordinates are that cell. -/
def coherentB (b : BoardL) : Bool :=
  b.grid.enum.all fun rrow => rrow.2.enum.all fun ccell =>
    match ccell.2 with
    | none => true
    | some p => p.row == (rrow.1 : ℤ) && p.col == (ccell.1 : ℤ)

/-- Coherence as a predicate over arbitrary coordinates. -/
def coherent (b : BoardL) : Prop :=
  ∀ (r c : ℤ) (p : PieceL), getCell b.grid r c = some p → p.row = r ∧ p.col = c

/-! ### Make / unmake (`Board.make_move`, `Board.unmake_move`) -/

/-- Bounds check against the board side (`_is_within_bounds` with explicit n). -/
def inBoundsN (n r c : ℤ) : Bool :=
  decide (0 ≤ r ∧ r < n ∧ 0 ≤ c ∧ c < n)

/-- `Board.getPiece` with explicit side length. -/
def getPieceN (n : ℤ) (g : Grid) (r c : ℤ) : Option PieceL :=
  if inBoundsN n r c then getCell g r c else none

/-- Undo record (`UndoRecord` dataclass in `board.py`). -/
structure UndoRecordL where
  prevTurn : Color
  prevHash : ℕ
  pieceBefore : PieceL
  pieceAfter : PieceL
  start : ℤ × ℤ
  endPos : ℤ × ℤ
  captured : List PieceL
  capturedPositions : List (ℤ × ℤ)
deriving DecidableEq, Repr

/-- The raise sites of `make_move` (ValueError / RuntimeError). -/
inductive MakeErr where
  | noSteps
  | startMismatch
  | occupantMismatch
  | captureCountMismatch
  | stepOutOfBounds
  | destinationOccupied
  | badCaptureTarget
deriving DecidableEq, Repr

/-- The step loop of `make_move` (lines 207–231): for each landing square,
validate bounds and emptiness, vacate the mover's square, optionally remove
the captured piece, place the mover, updating the hash incrementally.  An
exception leaves the partially mutated grid and hash, which the error value
carries. -/
def makeSteps (keys : ZobristKeys) (n : ℤ) :
    PieceL → Grid → ℕ → List ((ℤ × ℤ) × Option (ℤ × ℤ)) →
    Except (MakeErr × Grid × ℕ) (Grid × ℕ × PieceL × List (PieceL × (ℤ × ℤ)))
  | piece, g, h, [] => .ok (g, h, piece, [])
  | piece, g, h, (s, capOpt) :: rest =>
    if inBoundsN n s.1 s.2 = false then .error (.stepOutOfBounds, g, h)
    else
      match getPieceN n g s.1 s.2 with
      | some _ => .error (.destinationOccupied, g, h)
      | none =>
        let g1 := setCell g piece.row piece.col none
        let h1 := h ^^^ zobrist_piece_key keys n piece.row piece.col piece
        match capOpt with
        | none =>
          let piece' : PieceL := { piece with row := s.1, col := s.2 }
          let g2 := setCell g1 s.1 s.2 (some piece')
          let h2 := h1 ^^^ zobrist_piece_key keys n s.1 s.2 piece'
          makeSteps keys n piece' g2 h2 rest
        | some cp =>
          match getPieceN n g1 cp.1 cp.2 with
          | none => .error (.badCaptureTarget, g1, h1)
          | some target =>
            if target.color = piece.color then .error (.badCaptureTarget, g1, h1)
            else
              let g2 := setCell g1 cp.1 cp.2 none
              let h2 := h1 ^^^ zobrist_piece_key keys n cp.1 cp.2 target
              let piece' : PieceL := { piece with row := s.1, col := s.2 }
              let g3 := setCell g2 s.1 s.2 (some piece')
              let h3 := h2 ^^^ zobrist_piece_key keys n s.1 s.2 piece'
              match makeSteps keys n piece' g3 h3 rest with
              | .error e => .error e
              | .ok (gf, hf, pf, caps) => .ok (gf, hf, pf, (target, cp) :: caps)

/-- `Board.make_move`.  Up-front validation, then the step loop, then
promotion (`_handle_promotion` writes the king, and the caller re-writes the
square while fixing up the hash), then the turn flip.  Errors carry the board
as the exception leaves it. -/
def make_move (keys : ZobristKeys) (piece : PieceL) (m : Move) (b : BoardL) :
    Except (MakeErr × BoardL) (UndoRecordL × BoardL) :=
  if m.steps.isEmpty then .error (.noSteps, b)
  else if m.start ≠ (piece.row, piece.col) then .error (.startMismatch, b)
  else if getPiece b piece.row piece.col ≠ some piece then .error (.occupantMismatch, b)
  else if m.isCapture ∧ m.captures.length ≠ m.steps.length then
    .error (.captureCountMismatch, b)
  else
    let paired := if m.isCapture then m.steps.zip (m.captures.map some)
                  else m.steps.map (fun s => (s, none))
    match makeSteps keys b.boardSize piece b.grid b.zobrist paired with
    | .error (e, g, h) => .error (e, { b with grid := g, zobrist := h })
    | .ok (g, h, pEnd, caps) =>
      let lastRow : ℤ := if pEnd.color = Color.white then 0 else b.boardSize - 1
      let after :=
        if pEnd.isKing = false ∧ pEnd.row = lastRow then
          let promoted : PieceL := { pEnd with isKing := true }
          let gh := setCell g pEnd.row pEnd.col (some promoted)
          let g1 := setCell gh pEnd.row pEnd.col none
          let h1 := h ^^^ zobrist_piece_key keys b.boardSize pEnd.row pEnd.col pEnd
          let g2 := setCell g1 pEnd.row pEnd.col (some promoted)
          let h2 := h1 ^^^ zobrist_piece_key keys b.boardSize pEnd.row pEnd.col promoted
          (g2, h2, promoted)
        else (g, h, pEnd)
      let newTurn := b.turn.opponent
      .ok ({ prevTurn := b.turn
             prevHash := b.zobrist
             pieceBefore := pEnd
             pieceAfter := after.2.2
             start := m.start
             endPos := (pEnd.row, pEnd.col)
             captured := caps.map Prod.fst
             capturedPositions := caps.map Prod.snd },
           { b with
             grid := after.1
             turn := newTurn
             zobrist := after.2.1 ^^^ keys.turnKey b.turn ^^^ keys.turnKey newTurn })

/-- `Board.unmake_move`: clear the end square, re-place captured pieces at
their recorded squares, restore the mover at the start square, restore turn
and hash from the undo record. -/
def unmake_move (u : UndoRecordL) (b : BoardL) : BoardL :=
  let g0 := setCell b.grid u.endPos.1 u.endPos.2 none
  let g1 := (u.captured.zip u.capturedPositions).foldl
    (fun gr pc => setCell gr pc.2.1 pc.2.2
      (some { pc.1 with row := pc.2.1, col := pc.2.2 })) g0
  let pb : PieceL := { u.pieceBefore with row := u.start.1, col := u.start.2 }
  { b with
    grid := setCell g1 u.start.1 u.start.2 (some pb)
    turn := u.prevTurn
    zobrist := u.prevHash }

/-! ### Round-trip lemmas for the step loop -/

/-- Re-place captured pieces (as values) at their recorded squares, in
capture order. -/
def restoreCapsRaw (caps : List (PieceL × (ℤ × ℤ))) (g : Grid) : Grid :=
  caps.foldl (fun gr pc => setCell gr pc.2.1 pc.2.2 (some pc.1)) g

/-! ### Concrete test fixtures for witnesses -/

instance instDecEqExcept {α β : Type} [DecidableEq α] [DecidableEq β] :
    DecidableEq (Except α β) := fun a b =>
  match a, b with
  | .error x, .error y =>
    if h : x = y then .isTrue (by rw [h]) else .isFalse (by simp [h])
  | .error _, .ok _ => .isFalse (by simp)
  | .ok _, .error _ => .isFalse (by simp)
  | .ok x, .ok y =>
    if h : x = y then .isTrue (by rw [h]) else .isFalse (by simp [h])

instance instDecGridDims (g : Grid) (n : ℤ) : Decidable (gridDims g n) := by
  unfold gridDims
  infer_instance

/-- A concrete key table (its values are irrelevant to the theorems, which
hold for every table). -/
def testKeys : ZobristKeys where
  pieceKey := fun n r c col k =>
    (n.natAbs + 1) * 1000 + r.natAbs * 100 + c.natAbs * 10 +
      (if col = Color.white then 0 else 2) + (if k then 1 else 0)
  turnKey := fun col => if col = Color.white then 7 else 11

def p0 : PieceL := ⟨Color.white, false, 2, 1, 0⟩

def grid0 : Grid :=
  [[none, none, none, none],
   [none, none, none, none],
   [none, some p0, none, none],
   [none, none, none, none]]

def b0 : BoardL :=
  { grid := grid0, boardSize := 4, turn := Color.white,
    zobrist := compute_board_hash testKeys
      { grid := grid0, boardSize := 4, turn := Color.white, zobrist := 0 } }

/-- A quiet single-step move for `p0`. -/
def m0 : Move := ⟨(2, 1), [(1, 0)], []⟩

def p0moved : PieceL := ⟨Color.white, false, 1, 0, 0⟩

def u0 : UndoRecordL :=
  { prevTurn := Color.white, prevHash := 5213, pieceBefore := p0moved,
    pieceAfter := p0moved, start := (2, 1), endPos := (1, 0),
    captured := [], capturedPositions := [] }

def b1 : BoardL :=
  { grid :=
      [[none, none, none, none],
       [some p0moved, none, none, none],
       [none, none, none, none],
       [none, none, none, none]],
    boardSize := 4, turn := Color.black, zobrist := 5095 }

/-- A move with an empty step list (hits the first validation). -/
def mBad : Move := ⟨(2, 1), [], []⟩

/-! ### Move generation (`pieces.py`)

The capture DFS recursions are fueled; each recursive call adds a captured
square to `visited`, so a fuel of `n² + 1` exceeds the recursion depth of
the Python implementation on any board. -/

/-- Recursion fuel (>= number of squares). -/
def dfsFuel (b : BoardL) : ℕ := b.boardSize.toNat * b.boardSize.toNat + 1

/-- The capture DFS shared by `Man.possibleMoves` (`dfs_captures`) and the
8×8 king search (`dfs_english`): jump an adjacent enemy to the empty square
beyond, in the given directions, never capturing a visited square twice;
emit a move at every maximal sequence. -/
def jumpDfs (b : BoardL) (selfColor : Color) (origin : ℤ × ℤ)
    (capDirs : List (ℤ × ℤ)) :
    ℕ → (ℤ × ℤ) → List (ℤ × ℤ) → List (ℤ × ℤ) → List (ℤ × ℤ) → List Move
  | 0, _, _, _, _ => []
  | fuel + 1, pos, path, captured, visited =>
    let exts := capDirs.filter fun d =>
      let mid := (pos.1 + d.1, pos.2 + d.2)
      let lnd := (pos.1 + 2 * d.1, pos.2 + 2 * d.2)
      isWithinBounds b lnd.1 lnd.2 &&
        (match getPiece b mid.1 mid.2 with
         | some q => decide (q.color ≠ selfColor)
         | none => false) &&
        (getPiece b lnd.1 lnd.2).isNone && !(visited.contains mid)
    if exts.isEmpty then
      if captured.isEmpty then []
      else [{ start := origin, steps := path, captures := captured }]
    else
      exts.flatMap fun d =>
        let mid := (pos.1 + d.1, pos.2 + d.2)
        let lnd := (pos.1 + 2 * d.1, pos.2 + 2 * d.2)
        jumpDfs b selfColor origin capDirs fuel lnd (path ++ [lnd])
          (captured ++ [mid]) (visited ++ [mid])

/-- `Man.possibleMoves`: quiet forward steps; captures forward on 8×8 and in
all four diagonals otherwise; captures, when any exist, replace the quiet
moves. -/
def manPossibleMoves (b : BoardL) (p : PieceL) : List Move :=
  let origin := (p.row, p.col)
  let forwardDirs : List (ℤ × ℤ) :=
    if p.color = Color.white then [(-1, -1), (-1, 1)] else [(1, -1), (1, 1)]
  let capDirs := if b.boardSize = 8 then forwardDirs
    else [(-1, -1), (-1, 1), (1, -1), (1, 1)]
  let moves := forwardDirs.filterMap fun d =>
    let nr := p.row + d.1
    let nc := p.col + d.2
    if isWithinBounds b nr nc && (getPiece b nr nc).isNone then
      some { start := origin, steps := [(nr, nc)], captures := ([] : List (ℤ × ℤ)) }
    else none
  let captureMoves := jumpDfs b p.color origin capDirs (dfsFuel b) origin [] [] []
  if captureMoves.isEmpty then moves else captureMoves

/-- Sliding quiet king moves on the ≠8 board (flying kings). -/
def slideMoves (b : BoardL) (origin d : ℤ × ℤ) : ℕ → (ℤ × ℤ) → List Move
  | 0, _ => []
  | fuel + 1, pos =>
    if isWithinBounds b pos.1 pos.2 && (getPiece b pos.1 pos.2).isNone then
      { start := origin, steps := [pos], captures := ([] : List (ℤ × ℤ)) }
        :: slideMoves b origin d fuel (pos.1 + d.1, pos.2 + d.2)
    else []

/-- Scan along a diagonal for the first occupied square; an enemy square not
yet visited is a capture candidate (`dfs_international` inner while loop). -/
def findEnemy (b : BoardL) (selfColor : Color) (visited : List (ℤ × ℤ))
    (d : ℤ × ℤ) : ℕ → (ℤ × ℤ) → Option (ℤ × ℤ)
  | 0, _ => none
  | fuel + 1, pos =>
    if isWithinBounds b pos.1 pos.2 then
      match getPiece b pos.1 pos.2 with
      | some q =>
        if q.color = selfColor || visited.contains pos then none else some pos
      | none => findEnemy b selfColor visited d fuel (pos.1 + d.1, pos.2 + d.2)
    else none

/-- Empty landing squares past a captured piece. -/
def landings (b : BoardL) (d : ℤ × ℤ) : ℕ → (ℤ × ℤ) → List (ℤ × ℤ)
  | 0, _ => []
  | fuel + 1, pos =>
    if isWithinBounds b pos.1 pos.2 && (getPiece b pos.1 pos.2).isNone then
      pos :: landings b d fuel (pos.1 + d.1, pos.2 + d.2)
    else []

/-- `dfs_international`: flying-king capture DFS on the ≠8 board. -/
def kingIntDfs (b : BoardL) (selfColor : Color) (origin : ℤ × ℤ)
    (dirs : List (ℤ × ℤ)) :
    ℕ → (ℤ × ℤ) → List (ℤ × ℤ) → List (ℤ × ℤ) → List (ℤ × ℤ) → List Move
  | 0, _, _, _, _ => []
  | fuel + 1, pos, path, captured, visited =>
    let branches := dirs.flatMap fun d =>
      match findEnemy b selfColor visited d (dfsFuel b) (pos.1 + d.1, pos.2 + d.2) with
      | none => []
      | some en =>
        (landings b d (dfsFuel b) (en.1 + d.1, en.2 + d.2)).map fun l => (en, l)
    if branches.isEmpty then
      if captured.isEmpty then []
      else [{ start := origin, steps := path, captures := captured }]
    else
      branches.flatMap fun el =>
        kingIntDfs b selfColor origin dirs fuel el.2 (path ++ [el.2])
          (captured ++ [el.1]) (visited ++ [el.1])

/-- `King.possibleMoves`. -/
def kingPossibleMoves (b : BoardL) (p : PieceL) : List Move :=
  let origin := (p.row, p.col)
  let directions : List (ℤ × ℤ) := [(-1, -1), (-1, 1), (1, -1), (1, 1)]
  if b.boardSize = 8 then
    let moves := directions.filterMap fun d =>
      let nr := p.row + d.1
      let nc := p.col + d.2
      if isWithinBounds b nr nc && (getPiece b nr nc).isNone then
        some { start := origin, steps := [(nr, nc)], captures := ([] : List (ℤ × ℤ)) }
      else none
    let captureMoves := jumpDfs b p.color origin directions (dfsFuel b) origin [] [] []
    if captureMoves.isEmpty then moves else captureMoves
  else
    let moves := directions.flatMap fun d =>
      slideMoves b origin d (dfsFuel b) (p.row + d.1, p.col + d.2)
    let captureMoves := kingIntDfs b p.color origin directions (dfsFuel b) origin [] [] []
    if captureMoves.isEmpty then moves else captureMoves

/-- `Piece.possibleMoves` dispatch (boards hold only `Man`/`King` pieces). -/
def possibleMoves (b : BoardL) (p : PieceL) : List Move :=
  if p.isKing then kingPossibleMoves b p else manPossibleMoves b p

/-- `Board.getAllPieces`: scan dark squares in row-major order. -/
def getAllPieces (b : BoardL) : List PieceL :=
  (List.range b.boardSize.toNat).flatMap fun r =>
    (List.range b.boardSize.toNat).filterMap fun c =>
      if (r + c) % 2 = 1 then getPiece b (r : ℤ) (c : ℤ) else none

/-- Kings captured by a move, read off the current board
(`kings_captured` in `_filter_majority_captures`). -/
def kingsCaptured (b : BoardL) (m : Move) : ℕ :=
  m.captures.foldl (fun t pos =>
    match getPiece b pos.1 pos.2 with
    | some q => if q.isKing then t + 1 else t
    | none => t) 0

/-- Maximum of a list of naturals (Python `max` on a nonempty list). -/
def listMaxNat (l : List ℕ) : ℕ := l.foldl Nat.max 0

/-- One filter stage of `_filter_majority_captures`: keep, per start square,
the moves satisfying `P`, dropping starts left with no move. -/
def entryFilter (P : Move → Bool) (capMap : List ((ℤ × ℤ) × List Move)) :
    List ((ℤ × ℤ) × List Move) :=
  capMap.filterMap fun sm =>
    if (sm.2.filter P).isEmpty then none else some (sm.1, sm.2.filter P)

/-- `Board._filter_majority_captures`: keep capture moves with the most
captured pieces; among those, the most captured kings. -/
def filter_majority_captures (b : BoardL) (capMap : List ((ℤ × ℤ) × List Move)) :
    List ((ℤ × ℤ) × List Move) :=
  if (capMap.flatMap (·.2)).isEmpty then capMap
  else
    let maxCaptures := listMaxNat ((capMap.flatMap (·.2)).map (·.captures.length))
    let byCount := entryFilter (fun mv => mv.captures.length == maxCaptures) capMap
    if byCount.isEmpty then capMap
    else
      let maxKings := listMaxNat ((byCount.flatMap (·.2)).map (kingsCaptured b))
      let majority := entryFilter (fun mv => kingsCaptured b mv == maxKings) byCount
      if majority.isEmpty then byCount else majority

/-- One iteration of the piece loop in `Board.getAllValidMoves`: file the
piece's moves under its position, in the capture map when any of its moves
captures, in the quiet map otherwise. -/
def movesMapsStep (b : BoardL) (color : Color)
    (maps : List ((ℤ × ℤ) × List Move) × List ((ℤ × ℤ) × List Move))
    (p : PieceL) :
    List ((ℤ × ℤ) × List Move) × List ((ℤ × ℤ) × List Move) :=
  if p.color ≠ color then maps
  else
    let moves := possibleMoves b p
    if moves.isEmpty then maps
    else
      let captureMoves := moves.filter (·.isCapture)
      if captureMoves.isEmpty then (maps.1, maps.2 ++ [((p.row, p.col), moves)])
      else (maps.1 ++ [((p.row, p.col), captureMoves)], maps.2)

/-- The two per-start maps built by `Board.getAllValidMoves` (capture map
and quiet map, in piece scan order). -/
def movesMapsByStart (b : BoardL) (color : Color) :
    List ((ℤ × ℤ) × List Move) × List ((ℤ × ℤ) × List Move) :=
  (getAllPieces b).foldl (movesMapsStep b color) ([], [])

/-- `Board.getAllValidMoves` before piece resolution: forced capture, and
majority capture on non-8 boards. -/
def getAllValidMovesByStart (b : BoardL) (color : Color) :
    List ((ℤ × ℤ) × List Move) :=
  let maps := movesMapsByStart b color
  if maps.1.isEmpty then maps.2
  else if b.boardSize ≠ 8 then filter_majority_captures b maps.1
  else maps.1

/-- `Board._resolve_moves_by_start`: look the current occupant up at each
start square, dropping entries whose square is empty. -/
def resolveMovesByStart (b : BoardL) (mm : List ((ℤ × ℤ) × List Move)) :
    List (PieceL × List Move) :=
  mm.filterMap fun sm =>
    match getPiece b sm.1.1 sm.1.2 with
    | none => none
    | some p => some (p, sm.2)

/-- `Board.getAllValidMoves` (compute path of the hash-keyed cache). -/
def getAllValidMoves (b : BoardL) (color : Color) : List (PieceL × List Move) :=
  resolveMovesByStart b (getAllValidMovesByStart b color)

/-- White piece count in `is_game_over`. -/
def whiteCount (b : BoardL) : ℕ :=
  ((getAllPieces b).filter fun p => p.color = Color.white).length

/-- Black piece count in `is_game_over` (total minus white). -/
def blackCount (b : BoardL) : ℕ := (getAllPieces b).length - whiteCount b

/-- `Board.is_game_over`. -/
def is_game_over (b : BoardL) : Option Color :=
  if whiteCount b = 0 ∧ blackCount b = 0 then none
  else if whiteCount b = 0 then some Color.black
  else if blackCount b = 0 then some Color.white
  else if (getAllValidMoves b b.turn).isEmpty then some b.turn.opponent
  else none

/-! ### Game-over contract (C3) -/

/-- The game-over contract claimed by the specification: one side without
pieces loses; with both sides on the board, a stuck side to move loses —
except that when neither side has any move the result must be a draw. -/
def gameOverContract (b : BoardL) : Prop :=
  (whiteCount b = 0 → 0 < blackCount b → is_game_over b = some Color.black)
  ∧ (blackCount b = 0 → 0 < whiteCount b → is_game_over b = some Color.white)
  ∧ (0 < whiteCount b → 0 < blackCount b →
      getAllValidMoves b b.turn = [] → getAllValidMoves b b.turn.opponent ≠ [] →
      is_game_over b = some b.turn.opponent)
  ∧ (0 < whiteCount b → 0 < blackCount b →
      getAllValidMoves b b.turn = [] → getAllValidMoves b b.turn.opponent = [] →
      is_game_over b = none)

/-- Fixture builder: an `n × n` board populated from a piece list. -/
def mkFixtureBoard (n : ℤ) (t : Color) (ps : List PieceL) : BoardL :=
  { grid := (List.range n.toNat).map fun r =>
      (List.range n.toNat).map fun c =>
        ps.find? fun p => p.row = (r : ℤ) ∧ p.col = (c : ℤ),
    boardSize := n, turn := t, zobrist := 0 }

/-- The mutually stuck board of `test_game_over_when_side_to_move_has_no_moves`:
a white man trapped on (0,1) and a black man trapped on (7,0), white to move.
Both sides have pieces, neither side has any legal move. -/
def bStuck : BoardL := mkFixtureBoard 8 Color.white
  [⟨Color.white, false, 0, 1, 1⟩, ⟨Color.black, false, 7, 0, 2⟩]

/-- A capture move exists for the color (in the generator's sense). -/
def captureAvailable (b : BoardL) (color : Color) : Prop :=
  ∃ p ∈ getAllPieces b, p.color = color
    ∧ ∃ m ∈ possibleMoves b p, m.isCapture = true

instance instDecCaptureAvailable (b : BoardL) (color : Color) :
    Decidable (captureAvailable b color) := by
  unfold captureAvailable
  infer_instance

/-- The forced-jump board of the spec's seeded scenario 1: white man (5,0),
black men (4,1) and (2,3), white to move. -/
def bForced : BoardL := mkFixtureBoard 8 Color.white
  [⟨Color.white, false, 5, 0, 1⟩, ⟨Color.black, false, 4, 1, 2⟩,
   ⟨Color.black, false, 2, 3, 3⟩]

/-- The capture moves available to a color before majority filtering
(flattened capture map of `getAllValidMoves`). -/
def availableCaptureMoves (b : BoardL) (color : Color) : List Move :=
  (movesMapsByStart b color).1.flatMap fun x => x.2

/-- Maximum number of captured pieces over the available capture moves. -/
def maxCaptureCount (b : BoardL) (color : Color) : ℕ :=
  listMaxNat ((availableCaptureMoves b color).map (·.captures.length))

/-- Capture moves tied on the maximum captured-piece count. -/
def tiedCaptureMoves (b : BoardL) (color : Color) : List Move :=
  (availableCaptureMoves b color).filter
    fun mv => mv.captures.length == maxCaptureCount b color

/-- Maximum number of captured kings over the tied capture moves. -/
def maxKingsCount (b : BoardL) (color : Color) : ℕ :=
  listMaxNat ((tiedCaptureMoves b color).map (kingsCaptured b))

/-- The 10×10 majority-capture board of the repository's
`test_international_majority_capture_prefers_longest_sequence`: white man
(6,1), black men (5,2), (3,4) and (7,2). -/
def bMaj : BoardL := mkFixtureBoard 10 Color.white
  [⟨Color.white, false, 6, 1, 1⟩, ⟨Color.black, false, 5, 2, 2⟩,
   ⟨Color.black, false, 3, 4, 3⟩, ⟨Color.black, false, 7, 2, 4⟩]

/-! ### Evaluator (`huistic.py`), over exact rationals -/

/-- `EvalProfile` dataclass: the per-board-size weight vector. -/
structure EvalProfile where
  man_value : ℚ
  king_value_open : ℚ
  king_value_end : ℚ
  progress_weight : ℚ
  center_weight : ℚ
  back_row_weight_open : ℚ
  back_row_weight_end : ℚ
  mobility_weight : ℚ
  promotion_weight_open : ℚ
  promotion_weight_end : ℚ
  edge_weight : ℚ
  support_weight : ℚ
  capture_pressure_weight : ℚ
  threat_weight : ℚ
  capture_opportunity_weight : ℚ

/-- `_PROFILE_8`. -/
def PROFILE_8 : EvalProfile :=
  ⟨1, 2.05, 2.35, 0.12, 0.08, 0.22, 0.06, 0.04, 0.10, 0.22, 0.04, 0.06,
   0.03, 0.35, 0.18⟩

/-- `_PROFILE_10`. -/
def PROFILE_10 : EvalProfile :=
  ⟨1, 2.65, 3.10, 0.06, 0.06, 0.14, 0.04, 0.06, 0.08, 0.18, 0.02, 0.05,
   0.04, 0.45, 0.22⟩

/-- `_profile_for`. -/
def profile_for (board_size : ℤ) : EvalProfile :=
  if board_size = 8 then PROFILE_8 else PROFILE_10

/-- `_starting_pieces_per_side`. -/
def starting_pieces_per_side (board_size : ℤ) : ℤ :=
  max 0 ((max 1 (board_size / 2) - 1) * max 1 (board_size / 2))

/-- `_phase`: 0 = opening, 1 = endgame. -/
def phase (b : BoardL) : ℚ :=
  let start_total : ℤ := 2 * starting_pieces_per_side b.boardSize
  if start_total ≤ 0 then 1 / 2
  else max 0 (min 1 (1 - ((getAllPieces b).length : ℚ) / (start_total : ℚ)))

/-- `_forward_progress`. -/
def forward_progress (p : PieceL) (size : ℤ) : ℚ :=
  if p.isKing = true ∨ size ≤ 1 then 1
  else if p.color = Color.white then
    ((size - 1 - p.row : ℤ) : ℚ) / ((max (size - 1) 1 : ℤ) : ℚ)
  else (p.row : ℚ) / ((max (size - 1) 1 : ℤ) : ℚ)

/-- `_center_bias`. -/
def center_bias (p : PieceL) (size : ℤ) : ℚ :=
  if size ≤ 1 then 1
  else
    let center : ℚ := ((size - 1 : ℤ) : ℚ) / 2
    let max_offset : ℚ := if center ≠ 0 then center else 1
    max 0 (1 - (|(p.row : ℚ) - center| + |(p.col : ℚ) - center|) / (2 * max_offset))

/-- `_back_rank_guard`. -/
def back_rank_guard (p : PieceL) (size : ℤ) : ℚ :=
  if p.isKing = true then 0
  else if p.row = (if p.color = Color.white then size - 1 else 0) then 1 else 0

/-- `_promotion_threat`. -/
def promotion_threat (p : PieceL) (size : ℤ) : ℚ :=
  if p.isKing = true ∨ size ≤ 1 then 0
  else
    max 0 (1 - ((|p.row - (if p.color = Color.white then 0 else size - 1)| : ℤ) : ℚ)
      / ((max (size - 1) 1 : ℤ) : ℚ))

/-- `_edge_anchor`. -/
def edge_anchor (p : PieceL) (size : ℤ) : ℚ :=
  if size ≤ 2 then 0
  else if p.col = 0 ∨ p.col = size - 1 then 1
  else if p.col = 1 ∨ p.col = size - 2 then 1 / 2
  else 0

/-- `_support_network`: friendly diagonal neighbors over four. -/
def support_network (p : PieceL) (b : BoardL) : ℚ :=
  if b.boardSize ≤ 1 then 0
  else
    ((([(-1, -1), (-1, 1), (1, -1), (1, 1)] : List (ℤ × ℤ)).foldl
      (fun s d =>
        match getPiece b (p.row + d.1) (p.col + d.2) with
        | some q => if q.color = p.color then s + 1 else s
        | none => s) (0 : ℕ) : ℕ) : ℚ) / 4

/-- Pieces of one color, in scan order. -/
def colorPieces (b : BoardL) (color : Color) : List PieceL :=
  (getAllPieces b).filter fun p => p.color = color

/-- Rational sum over a piece list. -/
def sumQ (l : List PieceL) (f : PieceL → ℚ) : ℚ :=
  l.foldl (fun s p => s + f p) 0

/-- Per-color material accumulator. -/
def material_for (b : BoardL) (king_value man_value : ℚ) (color : Color) : ℚ :=
  sumQ (colorPieces b color) fun p => if p.isKing then king_value else man_value

/-- Per-color forward-progress accumulator (men only). -/
def progress_for (b : BoardL) (color : Color) : ℚ :=
  sumQ (colorPieces b color) fun p =>
    if p.isKing then 0 else forward_progress p b.boardSize

/-- Per-color promotion-threat accumulator (men only). -/
def promotion_for (b : BoardL) (color : Color) : ℚ :=
  sumQ (colorPieces b color) fun p =>
    if p.isKing then 0 else promotion_threat p b.boardSize

/-- Per-color back-rank accumulator (men only). -/
def back_row_for (b : BoardL) (color : Color) : ℚ :=
  sumQ (colorPieces b color) fun p =>
    if p.isKing then 0 else back_rank_guard p b.boardSize

/-- Per-color center-bias accumulator. -/
def centers_for (b : BoardL) (color : Color) : ℚ :=
  sumQ (colorPieces b color) fun p => center_bias p b.boardSize

/-- Per-color edge-anchor accumulator. -/
def edges_for (b : BoardL) (color : Color) : ℚ :=
  sumQ (colorPieces b color) fun p => edge_anchor p b.boardSize

/-- Per-color support accumulator. -/
def support_for (b : BoardL) (color : Color) : ℚ :=
  sumQ (colorPieces b color) fun p => support_network p b

/-- Per-color mobility: number of legal moves. -/
def mobility_for (b : BoardL) (color : Color) : ℚ :=
  (((getAllValidMoves b color).foldl (fun s pm => s + pm.2.length) 0 : ℕ) : ℚ)

/-- Per-color capture pressure: `1 + 0.2·|captures|` per capture move. -/
def capture_pressure_for (b : BoardL) (color : Color) : ℚ :=
  (getAllValidMoves b color).foldl
    (fun s pm => pm.2.foldl
      (fun t mv => if mv.isCapture then t + 1 + 0.20 * (mv.captures.length : ℚ)
        else t) s) 0

/-- Distinct squares captured by some legal move of the color
(`capture_targets`; a Python set, hence deduplicated). -/
def captureTargets (b : BoardL) (color : Color) : List (ℤ × ℤ) :=
  ((getAllValidMoves b color).flatMap fun pm =>
    pm.2.flatMap fun mv => mv.captures).dedup

/-- `by_pos` dict lookup: the piece list is written into the dict in scan
order, later entries overwriting earlier ones. -/
def lookupPos (b : BoardL) (pos : ℤ × ℤ) : Option PieceL :=
  ((getAllPieces b).reverse).find? fun p => p.row = pos.1 ∧ p.col = pos.2

/-- Own pieces standing on a square the opponent can capture. -/
def threatened_for (b : BoardL) (color : Color) : ℚ :=
  ((((captureTargets b color.opponent).filter fun pos =>
    match lookupPos b pos with
    | some q => q.color = color
    | none => false).length : ℕ) : ℚ)

/-- Enemy pieces standing on a square the color can capture. -/
def capture_opportunity_for (b : BoardL) (color : Color) : ℚ :=
  ((((captureTargets b color).filter fun pos =>
    match lookupPos b pos with
    | some q => q.color = color.opponent
    | none => false).length : ℕ) : ℚ)

/-- `evaluate_board`: phase-weighted signed sum of the per-color
accumulators, from the given perspective. -/
def evaluate_board (b : BoardL) (perspective : Color) : ℚ :=
  let profile := profile_for b.boardSize
  let ph := phase b
  let king_value := profile.king_value_open
    + (profile.king_value_end - profile.king_value_open) * ph
  let back_row_weight := profile.back_row_weight_open
    + (profile.back_row_weight_end - profile.back_row_weight_open) * ph
  let promotion_weight := profile.promotion_weight_open
    + (profile.promotion_weight_end - profile.promotion_weight_open) * ph
  let opponent := perspective.opponent
  (material_for b king_value profile.man_value perspective
      - material_for b king_value profile.man_value opponent)
    + profile.progress_weight * (progress_for b perspective - progress_for b opponent)
    + profile.center_weight * (centers_for b perspective - centers_for b opponent)
    + back_row_weight * (back_row_for b perspective - back_row_for b opponent)
    + promotion_weight * (promotion_for b perspective - promotion_for b opponent)
    + profile.edge_weight * (edges_for b perspective - edges_for b opponent)
    + profile.support_weight * (support_for b perspective - support_for b opponent)
    + profile.mobility_weight * (mobility_for b perspective - mobility_for b opponent)
    + profile.capture_pressure_weight
        * (capture_pressure_for b perspective - capture_pressure_for b opponent)
    + profile.capture_opportunity_weight
        * (capture_opportunity_for b perspective - capture_opportunity_for b opponent)
    - profile.threat_weight * (threatened_for b perspective - threatened_for b opponent)

/-! ### MCTS leaf normalization (`mcts.py`) -/

/-- `_normalize_eval`: divide by the fixed constant 1000.0 and clamp to
[−1, 1].  The function takes no board-size argument. -/
def normalize_eval (score : ℚ) : ℚ := max (-1) (min 1 (score / 1000))

/-! ### Minimax driver control flow (`minimax.py`, `select_move` and
`_search_root`, serial path)

Scores are extended rationals; the wall clock and the subtree searches are
abstracted by an oracle: at each `_check_time` site the oracle says whether
the deadline has passed (consulted only when a deadline is wired, i.e. when
`time_limit_ms > 0`), and each `_alphabeta` call either raises `_TimeUp`
(only possible with a wired deadline) or returns a score.  Every theorem
quantifies over the oracle, hence over every possible timing and every
possible subtree evaluation. -/

/-- Float scores with the two infinities used by the driver. -/
inductive XQ where
  | ninf
  | fin (q : ℚ)
  | pinf
deriving DecidableEq, Repr

/-- Comparison on extended scores. -/
def XQ.le : XQ → XQ → Bool
  | .ninf, _ => true
  | _, .pinf => true
  | .fin a, .fin b => decide (a ≤ b)
  | .pinf, _ => false
  | .fin _, .ninf => false

/-- Python `max` (first argument wins ties). -/
def XQ.maxx (a b : XQ) : XQ := if XQ.le b a then a else b

/-- `score > best_score + 1e-6`. -/
def gtEps (s : ℚ) : XQ → Bool
  | .ninf => true
  | .fin b => decide (b + 1 / 1000000 < s)
  | .pinf => false

/-- `best_score - window` on extended scores. -/
def XQ.subQ : XQ → ℚ → XQ
  | .ninf, _ => .ninf
  | .pinf, _ => .pinf
  | .fin a, w => .fin (a - w)

/-- `best_score + window` on extended scores. -/
def XQ.addQ : XQ → ℚ → XQ
  | .ninf, _ => .ninf
  | .pinf, _ => .pinf
  | .fin a, w => .fin (a + w)

/-- Timing/subtree oracle: arguments are (depth, aspiration attempt, root
move index), so distinct `_check_time` / `_alphabeta` sites read independent
values. -/
structure SearchOracle where
  rootCheck : ℕ → ℕ → ℕ → Bool
  subtreeTimeUp : ℕ → ℕ → ℕ → Bool
  subtreeScore : ℕ → ℕ → ℕ → ℚ
  loopCheck : ℕ → Bool

/-- The oracle of a run on which the deadline has already expired at every
check. -/
def allTimeUpOracle : SearchOracle :=
  ⟨fun _ _ _ => true, fun _ _ _ => true, fun _ _ _ => 0, fun _ => true⟩

/-- The `select_move` keyword arguments the serial driver consults. -/
structure MinimaxParams where
  depth : ℤ
  useAlphaBeta : Bool
  useAspiration : Bool
  aspirationWindow : ℚ
  useID : Bool
  timeLimitMs : ℤ
  aspirationFuel : ℕ
  useMoveOrdering : Bool
  useKillerMoves : Bool
  deterministicOrdering : Bool
  useHistory : Bool
  useButterfly : Bool
deriving Repr

/-- `_move_key`. -/
def move_key (m : Move) : ℤ × ℤ × ℤ × ℤ × ℕ :=
  (m.start.1, m.start.2, m.endPos.1, m.endPos.2, m.captures.length)

/-- `_fallback_move_key`. -/
def fallback_move_key (m : Move) : ℕ × ℤ × ℤ × ℤ × ℤ × ℤ :=
  ((if m.isCapture then 0 else 1), -(m.captures.length : ℤ),
    m.start.1, m.start.2, m.endPos.1, m.endPos.2)

/-- `_would_promote`. -/
def would_promote (p : PieceL) (m : Move) (board_size : ℤ) : Bool :=
  if p.isKing then false
  else decide (m.endPos.1 = (if p.color = Color.white then 0 else board_size - 1))

/-- `_move_sort_score` (the `butterfly` function models
`butterfly_table.get(key, 1)`). -/
def move_sort_score (p : PieceL) (m : Move) (board_size : ℤ) (ttMove : Option Move)
    (killers : List Move) (useHistory useButterfly : Bool)
    (history butterfly : ℤ × ℤ × ℤ × ℤ × ℕ → ℕ) : ℚ :=
  (if ttMove = some m then 1000 else 0)
    + (if m.isCapture then 500 + (m.captures.length : ℚ) * 25 else 0)
    + (if would_promote p m board_size then 150 else 0)
    + (if m ∈ killers then 120 else 0)
    + (if useHistory && !m.isCapture then
        (if useButterfly then
          ((history (move_key m) : ℚ) / ((max 1 (butterfly (move_key m)) : ℕ) : ℚ))
        else (history (move_key m) : ℚ)) * 0.01
      else 0)

/-- Lexicographic ≤ on fallback keys. -/
def lex6Le (x y : ℕ × ℤ × ℤ × ℤ × ℤ × ℤ) : Bool :=
  decide (x.1 < y.1) ||
  (x.1 == y.1 && (decide (x.2.1 < y.2.1) ||
  (x.2.1 == y.2.1 && (decide (x.2.2.1 < y.2.2.1) ||
  (x.2.2.1 == y.2.2.1 && (decide (x.2.2.2.1 < y.2.2.2.1) ||
  (x.2.2.2.1 == y.2.2.2.1 && (decide (x.2.2.2.2.1 < y.2.2.2.2.1) ||
  (x.2.2.2.2.1 == y.2.2.2.2.1 && decide (x.2.2.2.2.2 ≤ y.2.2.2.2.2))))))))))

/-- Lexicographic ≤ on (sort score, fallback key). -/
def scoreKeyLe (x y : ℚ × (ℕ × ℤ × ℤ × ℤ × ℤ × ℤ)) : Bool :=
  decide (x.1 < y.1) || (x.1 == y.1 && lex6Le x.2 y.2)

/-- Move the first pair matching the TT move to the prefix
(`pairs.pop(idx)` into `prefix`). -/
def removeFirstTT (t : Move) : List (PieceL × Move) →
    List (PieceL × Move) × List (PieceL × Move)
  | [] => ([], [])
  | pm :: rest =>
    if pm.2 = t then ([pm], rest)
    else
      let r := removeFirstTT t rest
      (r.1, pm :: r.2)

/-- Stable insertion into a sorted list (ties keep the incoming element
first). -/
def insertStable (le : α → α → Bool) (x : α) : List α → List α
  | [] => [x]
  | y :: ys => if le x y then x :: y :: ys else y :: insertStable le x ys

/-- A stable sort, the semantics of Python's `sorted`. -/
def sortStable (le : α → α → Bool) : List α → List α
  | [] => []
  | x :: xs => insertStable le x (sortStable le xs)

/-- `_order_moves` (root call: empty killer/history/butterfly tables). -/
def order_moves (movesMap : List (PieceL × List Move)) (boardSize : ℤ)
    (useMoveOrdering useKillerMoves deterministicOrdering useHistory useButterfly :
      Bool)
    (ttMove : Option Move) (killers : List Move)
    (history butterfly : ℤ × ℤ × ℤ × ℤ × ℕ → ℕ) : List (PieceL × Move) :=
  let pairs := movesMap.flatMap fun pm => pm.2.map fun m => (pm.1, m)
  let pr := match ttMove with
    | none => (([] : List (PieceL × Move)), pairs)
    | some t => removeFirstTT t pairs
  if !useMoveOrdering then
    if deterministicOrdering then
      pr.1 ++ sortStable (fun x y =>
        lex6Le (fallback_move_key x.2) (fallback_move_key y.2)) pr.2
    else pr.1 ++ pr.2
  else
    let killers' := if useKillerMoves then killers else []
    pr.1 ++ (sortStable (fun x y => scoreKeyLe y.1 x.1)
      (pr.2.map fun pm =>
        ((move_sort_score pm.1 pm.2 boardSize none killers' useHistory useButterfly
            history butterfly, fallback_move_key pm.2), pm))).map (·.2)

/-- Result triple of `_search_root`. -/
structure RootResult where
  choice : Option (PieceL × Move)
  score : XQ
  completed : Bool
deriving Repr

/-- The root move loop of `_search_root` (serial). -/
def searchRootGo (ab : Bool) (checkT : ℕ → Bool) (sub : ℕ → Option ℚ) (beta : XQ) :
    List (PieceL × Move) → ℕ → Option (PieceL × Move) → XQ → XQ → RootResult
  | [], _, bestC, bestS, _ => ⟨bestC, bestS, true⟩
  | pm :: rest, i, bestC, bestS, alpha =>
    if checkT i then ⟨bestC, bestS, false⟩
    else
      match sub i with
      | none => ⟨bestC, bestS, false⟩
      | some score =>
        let bestC' := if gtEps score bestS then some pm else bestC
        let bestS' := if gtEps score bestS then XQ.fin score else bestS
        if ab then
          let alpha' := XQ.maxx alpha bestS'
          if XQ.le beta alpha' then ⟨bestC', bestS', true⟩
          else searchRootGo ab checkT sub beta rest (i + 1) bestC' bestS' alpha'
        else searchRootGo ab checkT sub beta rest (i + 1) bestC' bestS' alpha

/-- `_search_root`: best choice starts at the first root move. -/
def searchRoot (ab : Bool) (checkT : ℕ → Bool) (sub : ℕ → Option ℚ)
    (rootMoves : List (PieceL × Move)) (alpha beta : XQ) : RootResult :=
  searchRootGo ab checkT sub beta rootMoves 0 rootMoves.head? XQ.ninf alpha

/-- The aspiration re-search loop around `_search_root` inside the
iterative-deepening loop (fueled; the sources double the window until the
score falls inside it). -/
def aspirationLoop (o : SearchOracle) (dl ab useAsp : Bool)
    (rootMoves : List (PieceL × Move)) (d : ℕ) (bestS : XQ) :
    ℕ → ℕ → ℚ → XQ → XQ → RootResult
  | 0, attempt, _, alpha, beta =>
    searchRoot ab (fun i => dl && o.rootCheck d attempt i)
      (fun i => if dl && o.subtreeTimeUp d attempt i then none
        else some (o.subtreeScore d attempt i)) rootMoves alpha beta
  | fuel + 1, attempt, window, alpha, beta =>
    let res := searchRoot ab (fun i => dl && o.rootCheck d attempt i)
      (fun i => if dl && o.subtreeTimeUp d attempt i then none
        else some (o.subtreeScore d attempt i)) rootMoves alpha beta
    if !useAsp || !res.completed then res
    else if XQ.le res.score alpha then
      aspirationLoop o dl ab useAsp rootMoves d bestS fuel (attempt + 1)
        (window * 2) (XQ.subQ bestS (window * 2)) (XQ.addQ bestS (window * 2))
    else if XQ.le beta res.score then
      aspirationLoop o dl ab useAsp rootMoves d bestS fuel (attempt + 1)
        (window * 2) (XQ.subQ bestS (window * 2)) (XQ.addQ bestS (window * 2))
    else res

/-- The iterative-deepening loop of `select_move`. -/
def idLoopGo (o : SearchOracle) (p : MinimaxParams) (dl : Bool)
    (rootMoves : List (PieceL × Move)) :
    ℕ → ℕ → Option (PieceL × Move) → XQ → Option (PieceL × Move)
  | 0, _, bestC, _ => bestC
  | remaining + 1, d, bestC, bestS =>
    let w := max 1 p.aspirationWindow
    let ab0 : XQ × XQ :=
      if p.useAspiration && !(bestS == XQ.ninf)
      then (XQ.subQ bestS w, XQ.addQ bestS w) else (XQ.ninf, XQ.pinf)
    let res := aspirationLoop o dl p.useAlphaBeta p.useAspiration rootMoves d bestS
      p.aspirationFuel 0 w ab0.1 ab0.2
    let upd : Bool := res.choice.isSome && (res.completed || bestC.isNone)
    let bestC' := if upd then res.choice else bestC
    let bestS' := if upd then res.score else bestS
    if !res.completed then bestC'
    else if dl && o.loopCheck d then bestC'
    else idLoopGo o p dl rootMoves remaining (d + 1) bestC' bestS'

/-- The ordered root move list of `select_move`. -/
def rootOrderedMoves (b : BoardL) (player : Color) (p : MinimaxParams)
    (ttMove : Option Move) : List (PieceL × Move) :=
  order_moves (getAllValidMoves b player) b.boardSize p.useMoveOrdering
    p.useKillerMoves p.deterministicOrdering p.useHistory p.useButterfly
    ttMove [] (fun _ => 0) (fun _ => 1)

/-- `select_move` (serial path; `ttMove` models `_root_tt_move`'s lookup).
A deadline is wired exactly when `time_limit_ms > 0` (line 217), in both the
fixed-depth and the iterative-deepening branches. -/
def select_move (o : SearchOracle) (p : MinimaxParams) (b : BoardL)
    (player : Color) (ttMove : Option Move) :
    Except Unit (Option (PieceL × Move)) :=
  if p.depth ≤ 0 then .error ()
  else
    let movesMap := getAllValidMoves b player
    if movesMap.isEmpty then .ok none
    else
      let rootMoves := rootOrderedMoves b player p ttMove
      if rootMoves.isEmpty then .ok none
      else
        let dl : Bool := decide (0 < p.timeLimitMs)
        if p.useID then
          .ok (idLoopGo o p dl rootMoves p.depth.toNat 1 none XQ.ninf)
        else
          .ok (searchRoot p.useAlphaBeta (fun i => dl && o.rootCheck 0 0 i)
            (fun i => if dl && o.subtreeTimeUp 0 0 i then none
              else some (o.subtreeScore 0 0 i)) rootMoves XQ.ninf XQ.pinf).choice

/-- `select_move` keyword arguments of a plain fixed-depth search with a
positive `time_limit_ms`. -/
def pC7 : MinimaxParams :=
  ⟨3, true, false, 50, false, 10, 4, true, false, true, false, false⟩

/-- An oracle on which every timing check reports the deadline as passed and
the subtree score of root move `i` is `i` (so the search, when it does run,
prefers the later move). -/
def oLate : SearchOracle :=
  ⟨fun _ _ _ => true, fun _ _ _ => true, fun _ _ i => (i : ℚ), fun _ => true⟩

/-- Fixed-depth parameters (`use_iterative_deepening=False`) with a given
`time_limit_ms`. -/
def pFixed (tl : ℤ) : MinimaxParams :=
  ⟨1, true, false, 50, false, tl, 4, true, false, true, false, false⟩

/-! ### Theorems -/

/-! ### Grid lemmas -/

theorem getElem?_some_lt {α : Type} {l : List α} {i : ℕ} {a : α}
    (h : l[i]? = some a) : i < l.length :=
  (List.getElem?_eq_some.mp h).1

theorem getElem?_none_le {α : Type} {l : List α} {i : ℕ}
    (h : l[i]? = none) : l.length ≤ i := by
  by_contra hlt
  push_neg at hlt
  rw [List.getElem?_eq_getElem hlt] at h
  exact Option.noConfusion h

theorem set_self_of_getElem? {α : Type} :
    ∀ (l : List α) (i : ℕ) (v : α), l[i]? = some v → l.set i v = l := by
  intro l
  induction l with
  | nil => intro i v h; simp at h
  | cons a t ih =>
    intro i v h
    cases i with
    | zero => simp at h; simp [List.set, h]
    | succ n => simp at h; simp [List.set, ih n v h]

/-- Writing back the value already present leaves the grid unchanged. -/
theorem setCell_same (g : Grid) (r c : ℤ) (v : Option PieceL)
    (h : getCell g r c = v) : setCell g r c v = g := by
  unfold getCell at h
  unfold setCell
  by_cases hb : 0 ≤ r ∧ 0 ≤ c
  · rw [if_pos hb] at h
    rw [if_pos hb]
    cases hrow : g[r.toNat]? with
    | none =>
      exact List.set_eq_of_length_le (getElem?_none_le hrow)
    | some row =>
      simp only [Option.getD_some]
      cases hcol : row[c.toNat]? with
      | none =>
        rw [List.set_eq_of_length_le (getElem?_none_le hcol)]
        exact set_self_of_getElem? g r.toNat row hrow
      | some cell =>
        have hv : v = cell := by
          rw [← h, hrow]
          simp [hcol, Option.join]
        rw [hv, set_self_of_getElem? row c.toNat cell hcol]
        exact set_self_of_getElem? g r.toNat row hrow
  · rw [if_neg hb]

/-- Two writes to the same cell collapse to the last one. -/
theorem setCell_setCell_same (g : Grid) (r c : ℤ) (v w : Option PieceL) :
    setCell (setCell g r c v) r c w = setCell g r c w := by
  unfold setCell
  by_cases hb : 0 ≤ r ∧ 0 ≤ c
  · simp only [if_pos hb]
    cases hrow : g[r.toNat]? with
    | none =>
      rw [List.set_eq_of_length_le (getElem?_none_le hrow), hrow]
    | some row =>
      have hlt : r.toNat < g.length := getElem?_some_lt hrow
      rw [List.getElem?_set_self hlt]
      simp only [Option.getD_some]
      rw [List.set_set, List.set_set]
  · simp only [if_neg hb]

/-- Reading a different cell after a write sees the old grid. -/
theorem getCell_setCell_ne (g : Grid) (r c r' c' : ℤ) (v : Option PieceL)
    (h : (r, c) ≠ (r', c')) : getCell (setCell g r c v) r' c' = getCell g r' c' := by
  unfold getCell setCell
  by_cases hb : 0 ≤ r ∧ 0 ≤ c
  · simp only [if_pos hb]
    by_cases hb' : 0 ≤ r' ∧ 0 ≤ c'
    · simp only [if_pos hb']
      by_cases hr : r.toNat = r'.toNat
      · have hrr : r = r' := by omega
        have hcc : c ≠ c' := fun hc => h (by rw [hrr, hc])
        have hcn : c.toNat ≠ c'.toNat := by omega
        rw [hr]
        cases hrow : g[r'.toNat]? with
        | none =>
          rw [List.set_eq_of_length_le (getElem?_none_le (hr ▸ hrow)), hrow]
        | some row =>
          have hlt : r'.toNat < g.length := getElem?_some_lt hrow
          rw [List.getElem?_set_self hlt]
          simp only [Option.getD_some, Option.some_bind]
          rw [List.getElem?_set_ne hcn]
      · rw [List.getElem?_set_ne hr]
    · simp only [if_neg hb']
  · simp only [if_pos hb] at *
    by_cases hb' : 0 ≤ r' ∧ 0 ≤ c'
    · simp only [if_neg hb, if_pos hb']
    · simp only [if_neg hb, if_neg hb']

/-- Writes to different cells commute. -/
theorem setCell_comm (g : Grid) (r c r' c' : ℤ) (v w : Option PieceL)
    (h : (r, c) ≠ (r', c')) :
    setCell (setCell g r c v) r' c' w = setCell (setCell g r' c' w) r c v := by
  unfold setCell
  by_cases hb : 0 ≤ r ∧ 0 ≤ c
  · by_cases hb' : 0 ≤ r' ∧ 0 ≤ c'
    · simp only [if_pos hb, if_pos hb']
      by_cases hr : r.toNat = r'.toNat
      · have hrr : r = r' := by omega
        have hcc : c ≠ c' := fun hc => h (by rw [hrr, hc])
        have hcn : c.toNat ≠ c'.toNat := by omega
        subst hrr
        cases hrow : g[r.toNat]? with
        | none =>
          have hle := getElem?_none_le hrow
          rw [List.set_eq_of_length_le hle, List.set_eq_of_length_le hle,
            List.set_eq_of_length_le hle, List.set_eq_of_length_le hle]
        | some row =>
          have hlt : r.toNat < g.length := getElem?_some_lt hrow
          rw [List.getElem?_set_self hlt, List.getElem?_set_self hlt]
          simp only [Option.getD_some]
          rw [List.set_set, List.set_set, List.set_comm _ _ _ hcn]
      · rw [List.getElem?_set_ne hr, List.getElem?_set_ne (fun hh => hr hh.symm),
          List.set_comm _ _ _ hr]
    · simp only [if_pos hb, if_neg hb']
  · by_cases hb' : 0 ≤ r' ∧ 0 ≤ c'
    · simp only [if_neg hb, if_pos hb']
    · simp only [if_neg hb, if_neg hb']

theorem coherent_of_coherentB {b : BoardL} (h : coherentB b = true) : coherent b := by
  intro r c p hcell
  unfold getCell at hcell
  by_cases hb : 0 ≤ r ∧ 0 ≤ c
  · rw [if_pos hb] at hcell
    cases hrow : b.grid[r.toNat]? with
    | none => rw [hrow] at hcell; simp [Option.join] at hcell
    | some row =>
      rw [hrow] at hcell
      simp only [Option.some_bind] at hcell
      cases hcol : row[c.toNat]? with
      | none => rw [hcol] at hcell; simp [Option.join] at hcell
      | some cell =>
        rw [hcol] at hcell
        simp only [Option.join] at hcell
        unfold coherentB at h
        rw [List.all_eq_true] at h
        have hrowmem : (r.toNat, row) ∈ b.grid.enum := List.mk_mem_enum_iff_getElem?.mpr hrow
        have h2 := h _ hrowmem
        rw [List.all_eq_true] at h2
        have hcellmem : (c.toNat, cell) ∈ row.enum := List.mk_mem_enum_iff_getElem?.mpr hcol
        have h3 := h2 _ hcellmem
        simp only at h3
        rw [show cell = some p from hcell] at h3
        simp only [Bool.and_eq_true, beq_iff_eq] at h3
        obtain ⟨h4, h5⟩ := h3
        constructor
        · rw [h4, Int.toNat_of_nonneg hb.1]
        · rw [h5, Int.toNat_of_nonneg hb.2]
  · rw [if_neg hb] at hcell
    exact Option.noConfusion hcell

theorem getCell_some_bounds {g : Grid} {n : ℤ} {r c : ℤ} {p : PieceL}
    (hdims : gridDims g n) (h : getCell g r c = some p) :
    0 ≤ r ∧ r < n ∧ 0 ≤ c ∧ c < n := by
  unfold getCell at h
  by_cases hb : 0 ≤ r ∧ 0 ≤ c
  · rw [if_pos hb] at h
    cases hrow : g[r.toNat]? with
    | none => rw [hrow] at h; simp [Option.join] at h
    | some row =>
      rw [hrow] at h
      simp only [Option.some_bind] at h
      cases hcol : row[c.toNat]? with
      | none => rw [hcol] at h; simp [Option.join] at h
      | some cell =>
        have hr := getElem?_some_lt hrow
        have hc := getElem?_some_lt hcol
        have hrowmem : row ∈ g := by
          have := List.getElem?_eq_some.mp hrow
          obtain ⟨hlt, hget⟩ := this
          exact hget ▸ List.getElem_mem hlt
        have hrlen := hdims.2 row hrowmem
        rw [hdims.1] at hr
        rw [hrlen] at hc
        exact ⟨hb.1, by omega, hb.2, by omega⟩
  · rw [if_neg hb] at h
    exact Option.noConfusion h

theorem gridDims_setCell {g : Grid} {n : ℤ} (r c : ℤ) (v : Option PieceL)
    (hdims : gridDims g n) : gridDims (setCell g r c v) n := by
  unfold setCell
  by_cases hb : 0 ≤ r ∧ 0 ≤ c
  · rw [if_pos hb]
    by_cases hlen : r.toNat < g.length
    · constructor
      · rw [List.length_set]; exact hdims.1
      · intro row hrow
        rcases List.mem_or_eq_of_mem_set hrow with hmem | heq
        · exact hdims.2 row hmem
        · subst heq
          rw [List.length_set]
          rw [List.getElem?_eq_getElem hlen]
          simp only [Option.getD_some]
          exact hdims.2 _ (List.getElem_mem hlen)
    · rw [List.set_eq_of_length_le (by omega)]
      exact hdims
  · rw [if_neg hb]; exact hdims

/-- Reading the freshly written cell (under shape discipline and in-board
coordinates). -/
theorem getCell_setCell_self {g : Grid} {n : ℤ} (r c : ℤ) (v : Option PieceL)
    (hdims : gridDims g n) (hr0 : 0 ≤ r) (hrn : r < n) (hc0 : 0 ≤ c) (hcn : c < n) :
    getCell (setCell g r c v) r c = v := by
  unfold getCell setCell
  have hb : 0 ≤ r ∧ 0 ≤ c := ⟨hr0, hc0⟩
  rw [if_pos hb, if_pos hb]
  have hrlt : r.toNat < g.length := by rw [hdims.1]; omega
  cases hrow : g[r.toNat]? with
  | none => exact absurd (getElem?_none_le hrow) (by omega)
  | some row =>
    have hclt : c.toNat < row.length := by
      rw [hdims.2 row (by
        obtain ⟨hlt, hget⟩ := List.getElem?_eq_some.mp hrow
        exact hget ▸ List.getElem_mem hlt)]
      omega
    rw [List.getElem?_set_self hrlt]
    simp only [hrow, Option.getD_some, Option.some_bind]
    rw [List.getElem?_set_self hclt]
    simp [Option.join]

/-! XOR bookkeeping lemmas. -/

theorem xor_rotate (a b c : ℕ) : a ^^^ b ^^^ c = a ^^^ c ^^^ b := by
  rw [Nat.xor_assoc, Nat.xor_comm b c, ← Nat.xor_assoc]

theorem foldXor_congr {n : ℕ} {f g : ℕ → ℕ} (h : ∀ i < n, f i = g i) :
    foldXor n f = foldXor n g := by
  induction n with
  | zero => rfl
  | succ m ih =>
    unfold foldXor
    rw [ih (fun i hi => h i (by omega)), h m (by omega)]

theorem foldXor_update {n : ℕ} {f g : ℕ → ℕ} {i : ℕ} (hi : i < n)
    (h : ∀ j < n, j ≠ i → f j = g j) :
    foldXor n f ^^^ f i = foldXor n g ^^^ g i := by
  induction n with
  | zero => omega
  | succ m ih =>
    unfold foldXor
    by_cases him : i = m
    · subst him
      rw [Nat.xor_cancel_right, Nat.xor_cancel_right]
      exact foldXor_congr (fun j hj => h j (by omega) (by omega))
    · have hlt : i < m := by omega
      have hfm : f m = g m := h m (by omega) (fun hh => him hh.symm)
      rw [xor_rotate (foldXor m f) (f m) (f i), xor_rotate (foldXor m g) (g m) (g i),
        ih hlt (fun j hj hne => h j (by omega) hne), hfm]

/-- Hash bookkeeping for one cell write: the grid hash changes by XORing out
the old occupant key and XORing in the new one. -/
theorem gridHash_setCell (keys : ZobristKeys) {n : ℤ} {g : Grid} (r c : ℤ)
    (v : Option PieceL) (hdims : gridDims g n)
    (hr0 : 0 ≤ r) (hrn : r < n) (hc0 : 0 ≤ c) (hcn : c < n) :
    gridHash keys n (setCell g r c v)
      = gridHash keys n g ^^^ keyOfCell keys n r c (getCell g r c)
          ^^^ keyOfCell keys n r c v := by
  have hrN : r.toNat < n.toNat := by omega
  have hcN : c.toNat < n.toNat := by omega
  have hrcast : ((r.toNat : ℤ)) = r := Int.toNat_of_nonneg hr0
  have hccast : ((c.toNat : ℤ)) = c := Int.toNat_of_nonneg hc0
  unfold gridHash
  set F : ℕ → ℕ := fun rn => foldXor n.toNat fun cn =>
    keyOfCell keys n (rn : ℤ) (cn : ℤ) (getCell g (rn : ℤ) (cn : ℤ)) with hF
  set F' : ℕ → ℕ := fun rn => foldXor n.toNat fun cn =>
    keyOfCell keys n (rn : ℤ) (cn : ℤ) (getCell (setCell g r c v) (rn : ℤ) (cn : ℤ)) with hF'
  have hrowEq : foldXor n.toNat F' ^^^ F' r.toNat = foldXor n.toNat F ^^^ F r.toNat := by
    apply foldXor_update hrN
    intro j hj hne
    simp only [hF, hF']
    apply foldXor_congr
    intro cn _
    rw [getCell_setCell_ne]
    intro hpair
    apply hne
    have h1 : r = (j : ℤ) := congrArg Prod.fst hpair
    omega
  have hcolEq : F' r.toNat ^^^ keyOfCell keys n r c v
      = F r.toNat ^^^ keyOfCell keys n r c (getCell g r c) := by
    simp only [hF, hF']
    rw [hrcast]
    have hupd := foldXor_update (n := n.toNat)
      (f := fun cn => keyOfCell keys n r (cn : ℤ) (getCell (setCell g r c v) r (cn : ℤ)))
      (g := fun cn => keyOfCell keys n r (cn : ℤ) (getCell g r (cn : ℤ)))
      (i := c.toNat) hcN ?hagree
    · simp only at hupd
      rw [hccast] at hupd
      rw [getCell_setCell_self r c v hdims hr0 hrn hc0 hcn] at hupd
      exact hupd
    · intro j hj hne
      simp only
      rw [getCell_setCell_ne]
      intro hpair
      apply hne
      have h1 : c = (j : ℤ) := congrArg Prod.snd hpair
      omega
  -- combine the two exchange equations
  have h1 : foldXor n.toNat F' = foldXor n.toNat F ^^^ F r.toNat ^^^ F' r.toNat := by
    rw [← hrowEq, xor_rotate, Nat.xor_cancel_right]
  have h2 : F' r.toNat = F r.toNat ^^^ keyOfCell keys n r c (getCell g r c)
      ^^^ keyOfCell keys n r c v := by
    rw [← hcolEq, xor_rotate, Nat.xor_cancel_right]
  rw [h1, h2]
  rw [Nat.xor_assoc (foldXor n.toNat F), Nat.xor_assoc (F r.toNat),
    Nat.xor_cancel_left, ← Nat.xor_assoc]

theorem restoreCapsRaw_setCell (caps : List (PieceL × (ℤ × ℤ))) (g : Grid)
    (r c : ℤ) (v : Option PieceL) (hfresh : ∀ pc ∈ caps, pc.2 ≠ (r, c)) :
    restoreCapsRaw caps (setCell g r c v) = setCell (restoreCapsRaw caps g) r c v := by
  induction caps generalizing g with
  | nil => rfl
  | cons pc rest ih =>
    simp only [restoreCapsRaw, List.foldl_cons]
    have hne : (r, c) ≠ (pc.2.1, pc.2.2) := by
      intro hh
      exact hfresh pc (List.mem_cons_self pc rest) hh.symm
    rw [setCell_comm g r c pc.2.1 pc.2.2 v (some pc.1) hne]
    exact ih (setCell g pc.2.1 pc.2.2 (some pc.1))
      (fun q hq => hfresh q (List.mem_cons_of_mem pc hq))

theorem xor_pair_cancel (a k b : ℕ) : (a ^^^ k) ^^^ (b ^^^ k) = a ^^^ b := by
  rw [Nat.xor_assoc, Nat.xor_comm b k, Nat.xor_cancel_left]

theorem piece_set_pos_self (p : PieceL) (r c : ℤ) (hr : p.row = r) (hc : p.col = c) :
    ({ p with row := r, col := c } : PieceL) = p := by
  cases p
  simp_all

theorem inBoundsN_iff {n r c : ℤ} :
    inBoundsN n r c = true ↔ 0 ≤ r ∧ r < n ∧ 0 ≤ c ∧ c < n := by
  unfold inBoundsN
  exact decide_eq_true_iff

theorem getPieceN_none_getCell {n : ℤ} {g : Grid} {r c : ℤ}
    (hb : inBoundsN n r c = true) (h : getPieceN n g r c = none) :
    getCell g r c = none := by
  unfold getPieceN at h
  rwa [if_pos hb] at h

theorem getPieceN_some_getCell {n : ℤ} {g : Grid} {r c : ℤ} {p : PieceL}
    (h : getPieceN n g r c = some p) :
    getCell g r c = some p ∧ inBoundsN n r c = true := by
  unfold getPieceN at h
  by_cases hb : inBoundsN n r c = true
  · rw [if_pos hb] at h; exact ⟨h, hb⟩
  · rw [if_neg hb] at h; exact absurd h (by simp)

/-- Master specification of the step loop: on success,
(1) clearing the final square and re-placing the captured pieces undoes the
loop up to the mover's vacated start square,
(2) each captured piece sat at its recorded square in the starting grid
with the opposite color,
(3) the mover keeps its color, kind and identity,
(4) grid shape is preserved, (5) the mover ends on its recorded square, and
(6) the hash moves in lockstep with the grid hash. -/
theorem makeSteps_spec (keys : ZobristKeys) (n : ℤ)
    (steps : List ((ℤ × ℤ) × Option (ℤ × ℤ))) :
    ∀ (piece : PieceL) (g : Grid) (h : ℕ) (gf : Grid) (hf : ℕ) (pf : PieceL)
      (caps : List (PieceL × (ℤ × ℤ))),
      gridDims g n → getCell g piece.row piece.col = some piece →
      makeSteps keys n piece g h steps = .ok (gf, hf, pf, caps) →
      restoreCapsRaw caps (setCell gf pf.row pf.col none)
          = setCell g piece.row piece.col none
        ∧ (∀ pc ∈ caps, getCell g pc.2.1 pc.2.2 = some pc.1
            ∧ pc.1.color ≠ piece.color)
        ∧ (pf.color = piece.color ∧ pf.isKing = piece.isKing ∧ pf.pid = piece.pid)
        ∧ gridDims gf n
        ∧ getCell gf pf.row pf.col = some pf
        ∧ hf ^^^ gridHash keys n gf = h ^^^ gridHash keys n g := by
  induction steps with
  | nil =>
    intro piece g h gf hf pf caps hdims hcur hok
    simp only [makeSteps, Except.ok.injEq, Prod.mk.injEq] at hok
    obtain ⟨h1, h2, h3, h4⟩ := hok
    subst h1; subst h2; subst h3; subst h4
    exact ⟨rfl, by simp, ⟨rfl, rfl, rfl⟩, hdims, hcur, rfl⟩
  | cons hd tl ih =>
    intro piece g h gf hf pf caps hdims hcur hok
    obtain ⟨s, capOpt⟩ := hd
    simp only [makeSteps] at hok
    by_cases hbndf : inBoundsN n s.1 s.2 = false
    · rw [if_pos hbndf] at hok
      exact absurd hok (by simp)
    rw [if_neg hbndf] at hok
    have hb : inBoundsN n s.1 s.2 = true := by
      cases hB : inBoundsN n s.1 s.2
      · exact absurd hB hbndf
      · rfl
    obtain ⟨hs0, hs1, hs2, hs3⟩ := inBoundsN_iff.mp hb
    cases hocc : getPieceN n g s.1 s.2 with
    | some q =>
      simp only [hocc] at hok
      exact absurd hok (by simp)
    | none =>
    simp only [hocc] at hok
    have hgs : getCell g s.1 s.2 = none := getPieceN_none_getCell hb hocc
    obtain ⟨hc0, hc1, hc2, hc3⟩ := getCell_some_bounds hdims hcur
    have hdims1 : gridDims (setCell g piece.row piece.col none) n :=
      gridDims_setCell _ _ _ hdims
    have hg1cur : getCell (setCell g piece.row piece.col none) piece.row piece.col
        = none := getCell_setCell_self _ _ _ hdims hc0 hc1 hc2 hc3
    have hg1s : getCell (setCell g piece.row piece.col none) s.1 s.2 = none := by
      by_cases hsc : (piece.row, piece.col) = (s.1, s.2)
      · have e1 : piece.row = s.1 := congrArg Prod.fst hsc
        have e2 : piece.col = s.2 := congrArg Prod.snd hsc
        rw [← e1, ← e2]
        exact hg1cur
      · rw [getCell_setCell_ne g piece.row piece.col s.1 s.2 none hsc]
        exact hgs
    cases capOpt with
    | none =>
      -- quiet step: vacate, place, recurse
      have hdims2 : gridDims (setCell (setCell g piece.row piece.col none) s.1 s.2
          (some { piece with row := s.1, col := s.2 })) n :=
        gridDims_setCell _ _ _ hdims1
      have hcur2 : getCell (setCell (setCell g piece.row piece.col none) s.1 s.2
            (some { piece with row := s.1, col := s.2 })) s.1 s.2
          = some { piece with row := s.1, col := s.2 } :=
        getCell_setCell_self _ _ _ hdims1 hs0 hs1 hs2 hs3
      obtain ⟨ihA, ihB, ihC, ihD, ihE, ihF⟩ :=
        ih { piece with row := s.1, col := s.2 }
          (setCell (setCell g piece.row piece.col none) s.1 s.2
            (some { piece with row := s.1, col := s.2 }))
          (h ^^^ zobrist_piece_key keys n piece.row piece.col piece ^^^
            zobrist_piece_key keys n s.1 s.2 { piece with row := s.1, col := s.2 })
          gf hf pf caps hdims2 hcur2 hok
      refine ⟨?_, ?_, ihC, ihD, ihE, ?_⟩
      · have e1 : restoreCapsRaw caps (setCell gf pf.row pf.col none)
            = setCell (setCell (setCell g piece.row piece.col none) s.1 s.2
                (some { piece with row := s.1, col := s.2 })) s.1 s.2 none := ihA
        rw [e1, setCell_setCell_same]
        exact setCell_same _ _ _ _ hg1s
      · intro pc hpc
        obtain ⟨hq, hcol'⟩ := ihB pc hpc
        have hcol : pc.1.color ≠ piece.color := hcol'
        have hqs : (pc.2.1, pc.2.2) ≠ (s.1, s.2) := by
          intro he
          have e1 : pc.2.1 = s.1 := congrArg Prod.fst he
          have e2 : pc.2.2 = s.2 := congrArg Prod.snd he
          rw [e1, e2, hcur2] at hq
          have : pc.1 = { piece with row := s.1, col := s.2 } :=
            (Option.some.inj hq).symm
          rw [this] at hcol
          exact hcol rfl
        have hqcur : (pc.2.1, pc.2.2) ≠ (piece.row, piece.col) := by
          intro he
          have e1 : pc.2.1 = piece.row := congrArg Prod.fst he
          have e2 : pc.2.2 = piece.col := congrArg Prod.snd he
          by_cases hsc : (piece.row, piece.col) = (s.1, s.2)
          · exact hqs (by rw [e1, e2]; exact hsc)
          · rw [e1, e2,
              getCell_setCell_ne _ s.1 s.2 piece.row piece.col _
                (fun hh => hsc hh.symm),
              hg1cur] at hq
            exact Option.noConfusion hq
        refine ⟨?_, hcol⟩
        rw [← hq,
          getCell_setCell_ne _ s.1 s.2 pc.2.1 pc.2.2 _ (fun hh => hqs hh.symm),
          getCell_setCell_ne _ piece.row piece.col pc.2.1 pc.2.2 _
            (fun hh => hqcur hh.symm)]
      · rw [ihF,
          gridHash_setCell keys s.1 s.2 _ hdims1 hs0 hs1 hs2 hs3,
          gridHash_setCell keys piece.row piece.col none hdims hc0 hc1 hc2 hc3,
          hg1s, hcur]
        simp only [keyOfCell, Nat.xor_zero]
        rw [Nat.xor_assoc h, Nat.xor_assoc (gridHash keys n g)]
        exact xor_pair_cancel h _ (gridHash keys n g)
    | some cp =>
      cases hocc2 : getPieceN n (setCell g piece.row piece.col none) cp.1 cp.2 with
      | none =>
        simp only [hocc2] at hok
        exact absurd hok (by simp)
      | some target =>
      simp only [hocc2] at hok
      by_cases hcolor : target.color = piece.color
      · rw [if_pos hcolor] at hok
        exact absurd hok (by simp)
      rw [if_neg hcolor] at hok
      obtain ⟨hg1cp, hbcp⟩ := getPieceN_some_getCell hocc2
      obtain ⟨hp0, hp1, hp2, hp3⟩ := inBoundsN_iff.mp hbcp
      have hcpcur : (cp.1, cp.2) ≠ (piece.row, piece.col) := by
        intro he
        have e1 : cp.1 = piece.row := congrArg Prod.fst he
        have e2 : cp.2 = piece.col := congrArg Prod.snd he
        rw [e1, e2, hg1cur] at hg1cp
        exact Option.noConfusion hg1cp
      have hgcp : getCell g cp.1 cp.2 = some target := by
        rw [← hg1cp,
          getCell_setCell_ne _ piece.row piece.col cp.1 cp.2 _
            (fun hh => hcpcur hh.symm)]
      have hscp : (cp.1, cp.2) ≠ (s.1, s.2) := by
        intro he
        have e1 : cp.1 = s.1 := congrArg Prod.fst he
        have e2 : cp.2 = s.2 := congrArg Prod.snd he
        rw [e1, e2, hg1s] at hg1cp
        exact Option.noConfusion hg1cp
      have hdims2 : gridDims (setCell (setCell g piece.row piece.col none) cp.1 cp.2
          none) n := gridDims_setCell _ _ _ hdims1
      have hg2s : getCell (setCell (setCell g piece.row piece.col none) cp.1 cp.2
          none) s.1 s.2 = none := by
        rw [getCell_setCell_ne _ cp.1 cp.2 s.1 s.2 _ hscp]
        exact hg1s
      have hg2cp : getCell (setCell (setCell g piece.row piece.col none) cp.1 cp.2
          none) cp.1 cp.2 = none :=
        getCell_setCell_self _ _ _ hdims1 hp0 hp1 hp2 hp3
      have hdims3 : gridDims (setCell (setCell (setCell g piece.row piece.col none)
          cp.1 cp.2 none) s.1 s.2 (some { piece with row := s.1, col := s.2 })) n :=
        gridDims_setCell _ _ _ hdims2
      have hcur3 : getCell (setCell (setCell (setCell g piece.row piece.col none)
            cp.1 cp.2 none) s.1 s.2 (some { piece with row := s.1, col := s.2 }))
            s.1 s.2
          = some { piece with row := s.1, col := s.2 } :=
        getCell_setCell_self _ _ _ hdims2 hs0 hs1 hs2 hs3
      have hg3cp : getCell (setCell (setCell (setCell g piece.row piece.col none)
            cp.1 cp.2 none) s.1 s.2 (some { piece with row := s.1, col := s.2 }))
            cp.1 cp.2 = none := by
        rw [getCell_setCell_ne _ s.1 s.2 cp.1 cp.2 _ (fun hh => hscp hh.symm)]
        exact hg2cp
      split at hok
      · exact absurd hok (by simp)
      rename_i gfx hfx pfx capsx hrec
      simp only [Except.ok.injEq, Prod.mk.injEq] at hok
      obtain ⟨e1, e2, e3, e4⟩ := hok
      subst e1; subst e2; subst e3; subst e4
      obtain ⟨ihA, ihB, ihC, ihD, ihE, ihF⟩ :=
        ih { piece with row := s.1, col := s.2 }
          (setCell (setCell (setCell g piece.row piece.col none) cp.1 cp.2 none)
            s.1 s.2 (some { piece with row := s.1, col := s.2 }))
          (h ^^^ zobrist_piece_key keys n piece.row piece.col piece ^^^
            zobrist_piece_key keys n cp.1 cp.2 target ^^^
            zobrist_piece_key keys n s.1 s.2 { piece with row := s.1, col := s.2 })
          gfx hfx pfx capsx hdims3 hcur3 hrec
      have hfresh : ∀ pc ∈ capsx, pc.2 ≠ (cp.1, cp.2) := by
        intro pc hpc he
        obtain ⟨hq, _⟩ := ihB pc hpc
        rw [show pc.2.1 = cp.1 from congrArg Prod.fst he,
          show pc.2.2 = cp.2 from congrArg Prod.snd he, hg3cp] at hq
        exact Option.noConfusion hq
      refine ⟨?_, ?_, ihC, ihD, ihE, ?_⟩
      · simp only [restoreCapsRaw, List.foldl_cons]
        have hstep : restoreCapsRaw capsx
            (setCell (setCell gfx pfx.row pfx.col none) cp.1 cp.2 (some target))
            = setCell (restoreCapsRaw capsx (setCell gfx pfx.row pfx.col none))
                cp.1 cp.2 (some target) :=
          restoreCapsRaw_setCell capsx _ cp.1 cp.2 (some target) hfresh
        rw [show List.foldl (fun gr pc => setCell gr pc.2.1 pc.2.2 (some pc.1))
              (setCell (setCell gfx pfx.row pfx.col none) cp.1 cp.2 (some target))
              capsx
            = restoreCapsRaw capsx
              (setCell (setCell gfx pfx.row pfx.col none) cp.1 cp.2 (some target))
            from rfl]
        rw [hstep]
        have e5 : restoreCapsRaw capsx (setCell gfx pfx.row pfx.col none)
            = setCell (setCell (setCell (setCell g piece.row piece.col none)
                cp.1 cp.2 none) s.1 s.2 (some { piece with row := s.1, col := s.2 }))
                s.1 s.2 none := ihA
        rw [e5, setCell_setCell_same, setCell_same _ _ _ _ hg2s,
          setCell_setCell_same]
        exact setCell_same _ _ _ _ hg1cp
      · intro pc hpc
        rcases List.mem_cons.mp hpc with hpc1 | hpc2
        · subst hpc1
          exact ⟨hgcp, hcolor⟩
        obtain ⟨hq, hcol'⟩ := ihB pc hpc2
        have hcol : pc.1.color ≠ piece.color := hcol'
        have hqs : (pc.2.1, pc.2.2) ≠ (s.1, s.2) := by
          intro he
          rw [show pc.2.1 = s.1 from congrArg Prod.fst he,
            show pc.2.2 = s.2 from congrArg Prod.snd he, hcur3] at hq
          have : pc.1 = { piece with row := s.1, col := s.2 } :=
            (Option.some.inj hq).symm
          rw [this] at hcol
          exact hcol rfl
        have hqcp : (pc.2.1, pc.2.2) ≠ (cp.1, cp.2) := hfresh pc hpc2
        have hqcur : (pc.2.1, pc.2.2) ≠ (piece.row, piece.col) := by
          intro he
          by_cases hsc : (piece.row, piece.col) = (s.1, s.2)
          · exact hqs (he.trans hsc)
          · rw [show pc.2.1 = piece.row from congrArg Prod.fst he,
              show pc.2.2 = piece.col from congrArg Prod.snd he,
              getCell_setCell_ne _ s.1 s.2 piece.row piece.col _
                (fun hh => hsc hh.symm),
              getCell_setCell_ne _ cp.1 cp.2 piece.row piece.col _ hcpcur,
              hg1cur] at hq
            exact Option.noConfusion hq
        refine ⟨?_, hcol⟩
        rw [← hq,
          getCell_setCell_ne _ s.1 s.2 pc.2.1 pc.2.2 _ (fun hh => hqs hh.symm),
          getCell_setCell_ne _ cp.1 cp.2 pc.2.1 pc.2.2 _ (fun hh => hqcp hh.symm),
          getCell_setCell_ne _ piece.row piece.col pc.2.1 pc.2.2 _
            (fun hh => hqcur hh.symm)]
      · rw [ihF,
          gridHash_setCell keys s.1 s.2 _ hdims2 hs0 hs1 hs2 hs3,
          gridHash_setCell keys cp.1 cp.2 none hdims1 hp0 hp1 hp2 hp3,
          gridHash_setCell keys piece.row piece.col none hdims hc0 hc1 hc2 hc3,
          hg2s, hg1cp, hcur]
        simp only [keyOfCell, Nat.xor_zero]
        rw [Nat.xor_assoc h, Nat.xor_assoc h,
          Nat.xor_assoc (gridHash keys n g), Nat.xor_assoc (gridHash keys n g),
          Nat.xor_assoc (zobrist_piece_key keys n piece.row piece.col piece)]
        exact xor_pair_cancel h _ (gridHash keys n g)

theorem xor_left_comm (a b c : ℕ) : a ^^^ (b ^^^ c) = b ^^^ (a ^^^ c) := by
  rw [← Nat.xor_assoc, Nat.xor_comm a b, Nat.xor_assoc]

theorem pieceL_ext {p q : PieceL} (h1 : p.color = q.color) (h2 : p.isKing = q.isKing)
    (h3 : p.row = q.row) (h4 : p.col = q.col) (h5 : p.pid = q.pid) : p = q := by
  cases p; cases q; simp_all

theorem restore_adjusted_eq_raw (caps : List (PieceL × (ℤ × ℤ))) :
    ∀ g : Grid, (∀ pc ∈ caps, pc.1.row = pc.2.1 ∧ pc.1.col = pc.2.2) →
    caps.foldl (fun gr pc => setCell gr pc.2.1 pc.2.2
        (some { pc.1 with row := pc.2.1, col := pc.2.2 })) g
      = restoreCapsRaw caps g := by
  induction caps with
  | nil => intro g _; rfl
  | cons pc rest ih =>
    intro g hco
    obtain ⟨h1, h2⟩ := hco pc (List.mem_cons_self pc rest)
    simp only [restoreCapsRaw, List.foldl_cons]
    rw [piece_set_pos_self pc.1 pc.2.1 pc.2.2 h1 h2]
    exact ih _ (fun q hq => hco q (List.mem_cons_of_mem pc hq))

theorem makeSteps_error_kinds (keys : ZobristKeys) (n : ℤ)
    (steps : List ((ℤ × ℤ) × Option (ℤ × ℤ))) :
    ∀ (piece : PieceL) (g : Grid) (h : ℕ) (e : MakeErr) (g2 : Grid) (h2 : ℕ),
      makeSteps keys n piece g h steps = .error (e, g2, h2) →
      e = .stepOutOfBounds ∨ e = .destinationOccupied ∨ e = .badCaptureTarget := by
  induction steps with
  | nil =>
    intro piece g h e g2 h2 hok
    simp only [makeSteps] at hok
    exact absurd hok (by simp)
  | cons hd tl ih =>
    intro piece g h e g2 h2 hok
    obtain ⟨s, capOpt⟩ := hd
    simp only [makeSteps] at hok
    by_cases hbndf : inBoundsN n s.1 s.2 = false
    · rw [if_pos hbndf] at hok
      simp only [Except.error.injEq, Prod.mk.injEq] at hok
      exact Or.inl hok.1.symm
    rw [if_neg hbndf] at hok
    cases hocc : getPieceN n g s.1 s.2 with
    | some q =>
      simp only [hocc] at hok
      simp only [Except.error.injEq, Prod.mk.injEq] at hok
      exact Or.inr (Or.inl hok.1.symm)
    | none =>
    simp only [hocc] at hok
    cases capOpt with
    | none => exact ih _ _ _ _ _ _ hok
    | some cp =>
      cases hocc2 : getPieceN n (setCell g piece.row piece.col none) cp.1 cp.2 with
      | none =>
        simp only [hocc2] at hok
        simp only [Except.error.injEq, Prod.mk.injEq] at hok
        exact Or.inr (Or.inr hok.1.symm)
      | some target =>
      simp only [hocc2] at hok
      by_cases hcolor : target.color = piece.color
      · rw [if_pos hcolor] at hok
        simp only [Except.error.injEq, Prod.mk.injEq] at hok
        exact Or.inr (Or.inr hok.1.symm)
      rw [if_neg hcolor] at hok
      split at hok
      · rename_i err heq
        simp only [Except.error.injEq] at hok
        rw [hok] at heq
        exact ih _ _ _ _ _ _ heq
      · exact absurd hok (by simp)

/-- C1: after a successful `make_move` of any move (in particular any legal
move of the side to move) on a well-shaped coherent board, `unmake_move`
with the returned undo record restores the board exactly: every square's
occupant, the turn and the Zobrist hash. -/
theorem C1_make_unmake_roundtrip (keys : ZobristKeys) (b : BoardL) (piece : PieceL)
    (m : Move) (u : UndoRecordL) (b2 : BoardL)
    (hdims : gridDims b.grid b.boardSize) (hco : coherentB b = true)
    (hok : make_move keys piece m b = .ok (u, b2)) :
    unmake_move u b2 = b := by
  have hcoh : coherent b := coherent_of_coherentB hco
  simp only [make_move] at hok
  split at hok
  · exact absurd hok (by simp)
  split at hok
  · exact absurd hok (by simp)
  split at hok
  · exact absurd hok (by simp)
  split at hok
  · exact absurd hok (by simp)
  rename_i hne1 hstart' hpc' hcnt
  have hstart : m.start = (piece.row, piece.col) := not_ne_iff.mp hstart'
  have hpc : getPiece b piece.row piece.col = some piece := not_ne_iff.mp hpc'
  have hcur : getCell b.grid piece.row piece.col = some piece := by
    unfold getPiece at hpc
    by_cases hwb : isWithinBounds b piece.row piece.col = true
    · rwa [if_pos hwb] at hpc
    · rw [if_neg hwb] at hpc
      exact absurd hpc (by simp)
  split at hok
  · exact absurd hok (by simp)
  rename_i gL hL pEnd caps hms
  obtain ⟨ihA, ihB, ihC, ihD, ihE, ihF⟩ :=
    makeSteps_spec keys b.boardSize _ piece b.grid b.zobrist gL hL pEnd caps
      hdims hcur hms
  simp only [Except.ok.injEq, Prod.mk.injEq] at hok
  obtain ⟨hu, hb2⟩ := hok
  subst hu
  subst hb2
  -- the undo computation
  simp only [unmake_move]
  have hzip : (caps.map Prod.fst).zip (caps.map Prod.snd) = caps := by
    rw [List.zip_map']
    simp
  rw [hzip]
  have hcaps_pos : ∀ pc ∈ caps, pc.1.row = pc.2.1 ∧ pc.1.col = pc.2.2 := by
    intro pc hpc
    obtain ⟨hq, _⟩ := ihB pc hpc
    exact hcoh pc.2.1 pc.2.2 pc.1 hq
  -- the end square clear collapses the promotion writes
  have hclear : setCell (if pEnd.isKing = false ∧ pEnd.row
        = (if pEnd.color = Color.white then 0 else b.boardSize - 1) then
        (setCell (setCell (setCell gL pEnd.row pEnd.col
            (some { pEnd with isKing := true })) pEnd.row pEnd.col none)
          pEnd.row pEnd.col (some { pEnd with isKing := true }),
          hL ^^^ zobrist_piece_key keys b.boardSize pEnd.row pEnd.col pEnd ^^^
            zobrist_piece_key keys b.boardSize pEnd.row pEnd.col
              { pEnd with isKing := true },
          { pEnd with isKing := true })
      else (gL, hL, pEnd)).1 pEnd.row pEnd.col none
      = setCell gL pEnd.row pEnd.col none := by
    by_cases hpromo : pEnd.isKing = false ∧ pEnd.row
        = (if pEnd.color = Color.white then 0 else b.boardSize - 1)
    · rw [if_pos hpromo]
      simp only
      rw [setCell_setCell_same, setCell_setCell_same, setCell_setCell_same]
    · rw [if_neg hpromo]
  rw [hclear]
  rw [restore_adjusted_eq_raw caps _ hcaps_pos]
  rw [ihA]
  have hpb : ({ pEnd with row := m.start.1, col := m.start.2 } : PieceL) = piece := by
    apply pieceL_ext
    · exact ihC.1
    · exact ihC.2.1
    · rw [hstart]
    · rw [hstart]
    · exact ihC.2.2
  rw [hstart] at hpb ⊢
  simp only at hpb ⊢
  rw [hpb, setCell_setCell_same, setCell_same _ _ _ _ hcur]

/-- C2: the incrementally maintained Zobrist hash stays in sync with the
full recomputation: applying `make_move` (any path, including multi-jump
captures and promotion) to a well-shaped board whose hash is in sync leaves
`zobrist_hash` equal to `compute_board_hash` of the resulting board. -/
theorem C2_hash_in_sync (keys : ZobristKeys) (b : BoardL) (piece : PieceL)
    (m : Move) (u : UndoRecordL) (b2 : BoardL)
    (hdims : gridDims b.grid b.boardSize)
    (hsync : b.zobrist = compute_board_hash keys b)
    (hok : make_move keys piece m b = .ok (u, b2)) :
    b2.zobrist = compute_board_hash keys b2 := by
  simp only [make_move] at hok
  split at hok
  · exact absurd hok (by simp)
  split at hok
  · exact absurd hok (by simp)
  split at hok
  · exact absurd hok (by simp)
  split at hok
  · exact absurd hok (by simp)
  rename_i hne1 hstart' hpc' hcnt
  have hpc : getPiece b piece.row piece.col = some piece := not_ne_iff.mp hpc'
  have hcur : getCell b.grid piece.row piece.col = some piece := by
    unfold getPiece at hpc
    by_cases hwb : isWithinBounds b piece.row piece.col = true
    · rwa [if_pos hwb] at hpc
    · rw [if_neg hwb] at hpc
      exact absurd hpc (by simp)
  split at hok
  · exact absurd hok (by simp)
  rename_i gL hL pEnd caps hms
  obtain ⟨ihA, ihB, ihC, ihD, ihE, ihF⟩ :=
    makeSteps_spec keys b.boardSize _ piece b.grid b.zobrist gL hL pEnd caps
      hdims hcur hms
  simp only [Except.ok.injEq, Prod.mk.injEq] at hok
  obtain ⟨hu, hb2⟩ := hok
  subst hu
  subst hb2
  have hstar : hL ^^^ gridHash keys b.boardSize gL = keys.turnKey b.turn := by
    rw [ihF]
    unfold compute_board_hash at hsync
    rw [hsync, Nat.xor_cancel_right]
  have hLeq : hL = keys.turnKey b.turn ^^^ gridHash keys b.boardSize gL := by
    rw [← hstar, Nat.xor_cancel_right]
  obtain ⟨he0, he1, he2, he3⟩ := getCell_some_bounds ihD ihE
  by_cases hpromo : pEnd.isKing = false ∧ pEnd.row
      = (if pEnd.color = Color.white then 0 else b.boardSize - 1)
  · rw [if_pos hpromo]
    simp only [compute_board_hash]
    rw [setCell_setCell_same, setCell_setCell_same]
    rw [gridHash_setCell keys pEnd.row pEnd.col _ ihD he0 he1 he2 he3, ihE]
    simp only [keyOfCell]
    rw [hLeq]
    simp [Nat.xor_assoc, Nat.xor_comm, xor_left_comm, Nat.xor_cancel_left,
      Nat.xor_self, Nat.xor_zero]
  · rw [if_neg hpromo]
    simp only [compute_board_hash]
    rw [hLeq]
    simp [Nat.xor_assoc, Nat.xor_comm, xor_left_comm, Nat.xor_cancel_left,
      Nat.xor_self, Nat.xor_zero]

/-- C10: if `make_move` raises on one of its four up-front validations
(empty step list, start mismatch, wrong occupant, capture count mismatch),
the board is completely unchanged. -/
theorem C10_validation_atomic (keys : ZobristKeys) (piece : PieceL) (m : Move)
    (b : BoardL) (e : MakeErr) (b2 : BoardL)
    (herr : make_move keys piece m b = .error (e, b2))
    (hval : e = .noSteps ∨ e = .startMismatch ∨ e = .occupantMismatch
      ∨ e = .captureCountMismatch) :
    b2 = b := by
  simp only [make_move] at herr
  split at herr
  · simp only [Except.error.injEq, Prod.mk.injEq] at herr
    exact herr.2.symm
  split at herr
  · simp only [Except.error.injEq, Prod.mk.injEq] at herr
    exact herr.2.symm
  split at herr
  · simp only [Except.error.injEq, Prod.mk.injEq] at herr
    exact herr.2.symm
  split at herr
  · simp only [Except.error.injEq, Prod.mk.injEq] at herr
    exact herr.2.symm
  split at herr
  · rename_i e1 g1 h1 hms
    simp only [Except.error.injEq, Prod.mk.injEq] at herr
    have hkinds := makeSteps_error_kinds keys b.boardSize _ piece b.grid b.zobrist
      e1 g1 h1 hms
    rw [herr.1] at hkinds
    rcases hval with h | h | h | h <;> rw [h] at hkinds <;>
      rcases hkinds with h2 | h2 | h2 <;> exact absurd h2 (by simp)
  · exact absurd herr (by simp)

/-- Witness for C1: the round trip at the concrete quiet move `m0`. -/
theorem C1_witness :
    unmake_move u0 b1 = b0 ∧ make_move testKeys p0 m0 b0 = .ok (u0, b1) :=
  ⟨C1_make_unmake_roundtrip testKeys b0 p0 m0 u0 b1 (by decide) (by decide)
    (by decide), by decide⟩

/-- Witness for C2: the incremental hash equals the recomputation at `m0`. -/
theorem C2_witness :
    b1.zobrist = compute_board_hash testKeys b1
      ∧ make_move testKeys p0 m0 b0 = .ok (u0, b1) :=
  ⟨C2_hash_in_sync testKeys b0 p0 m0 u0 b1 (by decide) (by decide) (by decide),
   by decide⟩

/-- Witness for C10: the empty-steps validation failure leaves the board
untouched. -/
theorem C10_witness :
    b0 = b0 ∧ make_move testKeys p0 mBad b0 = .error (.noSteps, b0) :=
  ⟨C10_validation_atomic testKeys p0 mBad b0 .noSteps b0 (by decide)
    (Or.inl rfl), by decide⟩

/-! ### Forced capture machinery (C4, C5) -/

theorem movesMapsStep_cap_mono (b : BoardL) (color : Color)
    (maps : List ((ℤ × ℤ) × List Move) × List ((ℤ × ℤ) × List Move)) (p : PieceL)
    (h : maps.1 ≠ []) : (movesMapsStep b color maps p).1 ≠ [] := by
  simp only [movesMapsStep]
  split_ifs with h1 h2 h3
  · exact h
  · exact h
  · exact h
  · simp

theorem movesMapsStep_cap_all (b : BoardL) (color : Color)
    (maps : List ((ℤ × ℤ) × List Move) × List ((ℤ × ℤ) × List Move)) (p : PieceL)
    (h : ∀ sm ∈ maps.1, ∀ m ∈ sm.2, m.isCapture = true) :
    ∀ sm ∈ (movesMapsStep b color maps p).1, ∀ m ∈ sm.2, m.isCapture = true := by
  simp only [movesMapsStep]
  split_ifs with h1 h2 h3
  · exact h
  · exact h
  · exact h
  · intro sm hsm m hm
    rcases List.mem_append.mp hsm with hold | hnew
    · exact h sm hold m hm
    · have : sm = ((p.row, p.col), (possibleMoves b p).filter (·.isCapture)) := by
        simpa using hnew
      rw [this] at hm
      exact (List.mem_filter.mp hm).2

theorem movesMapsStep_triggers (b : BoardL) (color : Color)
    (maps : List ((ℤ × ℤ) × List Move) × List ((ℤ × ℤ) × List Move)) (p : PieceL)
    (hp : p.color = color) (hm : ∃ m ∈ possibleMoves b p, m.isCapture = true) :
    (movesMapsStep b color maps p).1 ≠ [] := by
  obtain ⟨m, hmem, hcap⟩ := hm
  simp only [movesMapsStep]
  rw [if_neg (by simp [hp])]
  have hne : (possibleMoves b p).isEmpty = false := by
    rw [List.isEmpty_eq_false_iff_exists_mem]
    exact ⟨m, hmem⟩
  rw [if_neg (by simp [hne])]
  have hcne : ((possibleMoves b p).filter (·.isCapture)).isEmpty = false := by
    rw [List.isEmpty_eq_false_iff_exists_mem]
    exact ⟨m, List.mem_filter.mpr ⟨hmem, hcap⟩⟩
  rw [if_neg (by simp [hcne])]
  simp

theorem movesMaps_fold_cap_all (b : BoardL) (color : Color) :
    ∀ (ps : List PieceL) (acc : _ × _),
      (∀ sm ∈ acc.1, ∀ m ∈ sm.2, m.isCapture = true) →
      ∀ sm ∈ (ps.foldl (movesMapsStep b color) acc).1, ∀ m ∈ sm.2,
        m.isCapture = true := by
  intro ps
  induction ps with
  | nil => intro acc h; exact h
  | cons p rest ih =>
    intro acc h
    exact ih (movesMapsStep b color acc p) (movesMapsStep_cap_all b color acc p h)

theorem movesMaps_fold_cap_nonempty (b : BoardL) (color : Color) :
    ∀ (ps : List PieceL) (acc : _ × _),
      ((∃ p ∈ ps, p.color = color ∧ ∃ m ∈ possibleMoves b p, m.isCapture = true)
        ∨ acc.1 ≠ []) →
      (ps.foldl (movesMapsStep b color) acc).1 ≠ [] := by
  intro ps
  induction ps with
  | nil =>
    intro acc h
    rcases h with h | h
    · obtain ⟨p, hp, _⟩ := h
      exact absurd hp (by simp)
    · exact h
  | cons p rest ih =>
    intro acc h
    rcases h with h | h
    · obtain ⟨q, hq, hqc, hqm⟩ := h
      rcases List.mem_cons.mp hq with hq1 | hq2
      · subst hq1
        exact ih _ (Or.inr (movesMapsStep_triggers b color acc q hqc hqm))
      · exact ih _ (Or.inl ⟨q, hq2, hqc, hqm⟩)
    · exact ih _ (Or.inr (movesMapsStep_cap_mono b color acc p h))

theorem capMap_nonempty_of_captureAvailable {b : BoardL} {color : Color}
    (h : captureAvailable b color) : (movesMapsByStart b color).1 ≠ [] :=
  movesMaps_fold_cap_nonempty b color (getAllPieces b) ([], []) (Or.inl h)

theorem capMap_all_captures (b : BoardL) (color : Color) :
    ∀ sm ∈ (movesMapsByStart b color).1, ∀ m ∈ sm.2, m.isCapture = true :=
  movesMaps_fold_cap_all b color (getAllPieces b) ([], []) (by simp)

theorem entryFilter_mem (P : Move → Bool) (capMap : List ((ℤ × ℤ) × List Move)) :
    ∀ sm ∈ entryFilter P capMap, ∀ m ∈ sm.2,
      ∃ sm' ∈ capMap, m ∈ sm'.2 ∧ P m = true := by
  intro sm hsm m hm
  obtain ⟨sm0, hsm0, hf0⟩ := List.mem_filterMap.mp hsm
  by_cases he : (sm0.2.filter P).isEmpty
  · rw [if_pos he] at hf0
    exact absurd hf0 (by simp)
  · rw [if_neg he] at hf0
    have hsm' : sm = (sm0.1, sm0.2.filter P) := (Option.some.inj hf0).symm
    rw [hsm'] at hm
    obtain ⟨hm1, hm2⟩ := List.mem_filter.mp hm
    exact ⟨sm0, hsm0, hm1, hm2⟩

theorem entryFilter_retain (P : Move → Bool) (capMap : List ((ℤ × ℤ) × List Move)) :
    ∀ sm ∈ capMap, ∀ m ∈ sm.2, P m = true →
      ∃ sm' ∈ entryFilter P capMap, m ∈ sm'.2 := by
  intro sm hsm m hm hP
  have hmf : m ∈ sm.2.filter P := List.mem_filter.mpr ⟨hm, hP⟩
  have hne : (sm.2.filter P).isEmpty = false := by
    rw [List.isEmpty_eq_false_iff_exists_mem]
    exact ⟨m, hmf⟩
  refine ⟨(sm.1, sm.2.filter P), List.mem_filterMap.mpr ⟨sm, hsm, ?_⟩, hmf⟩
  rw [if_neg (by simp [hne])]

theorem entryFilter_flat (P : Move → Bool) :
    ∀ capMap : List ((ℤ × ℤ) × List Move),
      (entryFilter P capMap).flatMap (fun x => x.2)
        = (capMap.flatMap (fun x => x.2)).filter P := by
  intro capMap
  induction capMap with
  | nil => rfl
  | cons sm rest ih =>
    by_cases he : (sm.2.filter P).isEmpty
    · have hnil : sm.2.filter P = [] := List.isEmpty_iff.mp he
      simp only [entryFilter, List.filterMap_cons, if_pos he, List.flatMap_cons,
        List.filter_append, hnil, List.nil_append]
      exact ih
    · simp only [entryFilter, List.filterMap_cons, if_neg he, List.flatMap_cons,
        List.filter_append]
      exact congrArg (fun t => List.filter P sm.2 ++ t) ih

theorem filterMajority_move_subset (b : BoardL)
    (capMap : List ((ℤ × ℤ) × List Move)) :
    ∀ sm ∈ filter_majority_captures b capMap, ∀ m ∈ sm.2,
      ∃ sm' ∈ capMap, m ∈ sm'.2 := by
  simp only [filter_majority_captures]
  split_ifs with h1 h2 h3
  · intro sm hsm m hm; exact ⟨sm, hsm, hm⟩
  · intro sm hsm m hm; exact ⟨sm, hsm, hm⟩
  · intro sm hsm m hm
    obtain ⟨sm0, hsm0, hm0, _⟩ := entryFilter_mem _ _ sm hsm m hm
    exact ⟨sm0, hsm0, hm0⟩
  · intro sm hsm m hm
    obtain ⟨sm1, hsm1, hm1, _⟩ := entryFilter_mem _ _ sm hsm m hm
    obtain ⟨sm0, hsm0, hm0, _⟩ := entryFilter_mem _ _ sm1 hsm1 m hm1
    exact ⟨sm0, hsm0, hm0⟩

theorem resolve_subset (b : BoardL) (mm : List ((ℤ × ℤ) × List Move)) :
    ∀ pm ∈ resolveMovesByStart b mm, ∃ sm ∈ mm, pm.2 = sm.2 := by
  intro pm hpm
  obtain ⟨sm, hsm, hf⟩ := List.mem_filterMap.mp hpm
  refine ⟨sm, hsm, ?_⟩
  cases hg : getPiece b sm.1.1 sm.1.2 with
  | none => rw [hg] at hf; exact absurd hf (by simp)
  | some p =>
    rw [hg] at hf
    have : pm = (p, sm.2) := (Option.some.inj hf).symm
    rw [this]

/-- C3 counterexample: on the mutually stuck board (white man on (0,1),
black man on (7,0), white to move — the board of the repository's own
`test_game_over_when_side_to_move_has_no_moves`) both sides have pieces and
neither side has a legal move, yet `is_game_over` names Black the winner
instead of the contract's draw. -/
theorem C3_counterexample : ¬ gameOverContract bStuck := by
  intro h
  have hdraw := h.2.2.2 (by decide) (by decide) (by decide) (by decide)
  have hwin : is_game_over bStuck = some Color.black := by decide
  rw [hwin] at hdraw
  exact Option.noConfusion hdraw

/-- C3 amended: `is_game_over` returns the side still owning pieces when the
other has none (draw only for a completely empty board), and otherwise —
both sides having pieces — returns the opponent of the side to move exactly
when the side to move has no legal moves, even if the opponent is also
stuck. -/
theorem C3_amended_game_over (b : BoardL) :
    (whiteCount b = 0 ∧ blackCount b = 0 → is_game_over b = none)
    ∧ (whiteCount b = 0 → 0 < blackCount b → is_game_over b = some Color.black)
    ∧ (blackCount b = 0 → 0 < whiteCount b → is_game_over b = some Color.white)
    ∧ (0 < whiteCount b → 0 < blackCount b → getAllValidMoves b b.turn = [] →
        is_game_over b = some b.turn.opponent)
    ∧ (0 < whiteCount b → 0 < blackCount b → getAllValidMoves b b.turn ≠ [] →
        is_game_over b = none) := by
  refine ⟨?_, ?_, ?_, ?_, ?_⟩
  · intro h
    unfold is_game_over
    rw [if_pos h]
  · intro h1 h2
    unfold is_game_over
    rw [if_neg (by omega), if_pos h1]
  · intro h1 h2
    unfold is_game_over
    rw [if_neg (by omega), if_neg (by omega), if_pos h1]
  · intro h1 h2 h3
    unfold is_game_over
    rw [if_neg (by omega), if_neg (by omega), if_neg (by omega),
      if_pos (by simp [h3])]
  · intro h1 h2 h3
    unfold is_game_over
    rw [if_neg (by omega), if_neg (by omega), if_neg (by omega),
      if_neg (by simp [h3])]

/-- Witness for the amended C3 at the stuck board: the side to move has no
moves, so the other side is the winner. -/
theorem C3_amended_witness : is_game_over bStuck = some Color.black :=
  (C3_amended_game_over bStuck).2.2.2.1 (by decide) (by decide) (by decide)

/-- C4: forced capture — when any capture move exists for a color, every
move returned by `getAllValidMoves` for that color is a capture move. -/
theorem C4_forced_capture (b : BoardL) (color : Color)
    (hcap : captureAvailable b color) :
    ∀ pm ∈ getAllValidMoves b color, ∀ m ∈ pm.2, m.isCapture = true := by
  intro pm hpm m hm
  obtain ⟨sm, hsm, heq⟩ := resolve_subset b _ pm hpm
  rw [heq] at hm
  have hne := capMap_nonempty_of_captureAvailable hcap
  unfold getAllValidMoves at hpm
  unfold getAllValidMovesByStart at hsm
  rw [if_neg (by simp [List.isEmpty_iff]; exact hne)] at hsm
  by_cases hsize : b.boardSize ≠ 8
  · rw [if_pos hsize] at hsm
    obtain ⟨sm', hsm', hm'⟩ := filterMajority_move_subset b _ sm hsm m hm
    exact capMap_all_captures b color sm' hsm' m hm'
  · rw [if_neg hsize] at hsm
    exact capMap_all_captures b color sm hsm m hm

/-- Witness for C4 at the seeded forced-jump board. -/
theorem C4_witness :
    captureAvailable bForced Color.white
      ∧ ∀ pm ∈ getAllValidMoves bForced Color.white, ∀ m ∈ pm.2,
          m.isCapture = true :=
  ⟨by decide, C4_forced_capture bForced Color.white (by decide)⟩

/-! ### Majority capture (C5) -/

theorem le_foldl_max : ∀ (l : List ℕ) (a : ℕ), a ≤ l.foldl Nat.max a := by
  intro l
  induction l with
  | nil => intro a; exact Nat.le_refl a
  | cons x t ih =>
    intro a
    exact Nat.le_trans (Nat.le_max_left a x) (ih (Nat.max a x))

theorem mem_le_foldl_max : ∀ (l : List ℕ) (a x : ℕ), x ∈ l → x ≤ l.foldl Nat.max a := by
  intro l
  induction l with
  | nil => intro a x h; exact absurd h (by simp)
  | cons y t ih =>
    intro a x h
    rcases List.mem_cons.mp h with h1 | h2
    · subst h1
      exact Nat.le_trans (Nat.le_max_right a x) (le_foldl_max t (Nat.max a x))
    · exact ih (Nat.max a y) x h2

theorem foldl_max_mem : ∀ (l : List ℕ) (a : ℕ),
    l.foldl Nat.max a = a ∨ l.foldl Nat.max a ∈ l := by
  intro l
  induction l with
  | nil => intro a; exact Or.inl rfl
  | cons y t ih =>
    intro a
    rcases ih (Nat.max a y) with h | h
    · by_cases hay : a ≤ y
      · have h2 : Nat.max a y = y := Nat.max_eq_right hay
        refine Or.inr ?_
        rw [List.foldl_cons, h, h2]
        exact List.mem_cons_self y t
      · have h2 : Nat.max a y = a := Nat.max_eq_left (Nat.le_of_not_le hay)
        refine Or.inl ?_
        rw [List.foldl_cons, h, h2]
    · exact Or.inr (List.mem_cons_of_mem y (by rw [List.foldl_cons]; exact h))

theorem listMaxNat_le {l : List ℕ} {x : ℕ} (h : x ∈ l) : x ≤ listMaxNat l :=
  mem_le_foldl_max l 0 x h

theorem listMaxNat_mem {l : List ℕ} (h : l ≠ []) : listMaxNat l ∈ l := by
  rcases foldl_max_mem l 0 with h0 | hm
  · cases l with
    | nil => exact absurd rfl h
    | cons x t =>
      have hx : x ≤ listMaxNat (x :: t) := listMaxNat_le (List.mem_cons_self x t)
      have h0' : listMaxNat (x :: t) = 0 := h0
      rw [h0'] at hx
      have hx0 : x = 0 := Nat.le_antisymm hx (Nat.zero_le x)
      rw [h0', ← hx0]
      exact List.mem_cons_self x t
  · exact hm

theorem movesMaps_fold_entries_nonempty (b : BoardL) (color : Color) :
    ∀ (ps : List PieceL) (acc : _ × _),
      (∀ sm ∈ acc.1, sm.2 ≠ []) →
      ∀ sm ∈ (ps.foldl (movesMapsStep b color) acc).1, sm.2 ≠ [] := by
  intro ps
  induction ps with
  | nil => intro acc h; exact h
  | cons p rest ih =>
    intro acc h
    refine ih (movesMapsStep b color acc p) ?_
    simp only [movesMapsStep]
    split_ifs with h1 h2 h3
    · exact h
    · exact h
    · exact h
    · intro sm hsm
      rcases List.mem_append.mp hsm with hold | hnew
      · exact h sm hold
      · have heq : sm = ((p.row, p.col), (possibleMoves b p).filter (·.isCapture)) := by
          simpa using hnew
        rw [heq]
        intro hnil
        simp only at hnil
        rw [hnil] at h3
        exact h3 (by simp)

theorem movesMaps_fold_positions (b : BoardL) (color : Color) :
    ∀ (ps : List PieceL) (acc : _ × _),
      ∀ sm ∈ (ps.foldl (movesMapsStep b color) acc).1,
        (∃ p ∈ ps, sm.1 = (p.row, p.col)) ∨ sm ∈ acc.1 := by
  intro ps
  induction ps with
  | nil =>
    intro acc sm hsm
    exact Or.inr hsm
  | cons p rest ih =>
    intro acc sm hsm
    rcases ih (movesMapsStep b color acc p) sm hsm with h | h
    · obtain ⟨q, hq, he⟩ := h
      exact Or.inl ⟨q, List.mem_cons_of_mem p hq, he⟩
    · revert h
      simp only [movesMapsStep]
      split_ifs with h1 h2 h3
      · exact fun h => Or.inr h
      · exact fun h => Or.inr h
      · exact fun h => Or.inr h
      · intro h
        rcases List.mem_append.mp h with hold | hnew
        · exact Or.inr hold
        · refine Or.inl ⟨p, List.mem_cons_self p rest, ?_⟩
          have heq : sm = ((p.row, p.col), (possibleMoves b p).filter (·.isCapture)) := by
            simpa using hnew
          rw [heq]

theorem getAllPieces_getPiece {b : BoardL} {p : PieceL} (h : p ∈ getAllPieces b) :
    ∃ r c : ℤ, getPiece b r c = some p := by
  unfold getAllPieces at h
  obtain ⟨r, _, hr⟩ := List.mem_flatMap.mp h
  obtain ⟨c, _, hc⟩ := List.mem_filterMap.mp hr
  by_cases hd : (r + c) % 2 = 1
  · rw [if_pos hd] at hc
    exact ⟨(r : ℤ), (c : ℤ), hc⟩
  · rw [if_neg hd] at hc
    exact absurd hc (by simp)

theorem getAllPieces_self_pos {b : BoardL} {p : PieceL} (hco : coherentB b = true)
    (h : p ∈ getAllPieces b) : getPiece b p.row p.col = some p := by
  obtain ⟨r, c, hrc⟩ := getAllPieces_getPiece h
  have hcell : getCell b.grid r c = some p := by
    unfold getPiece at hrc
    by_cases hw : isWithinBounds b r c = true
    · rwa [if_pos hw] at hrc
    · rw [if_neg hw] at hrc
      exact absurd hrc (by simp)
  obtain ⟨h1, h2⟩ := coherent_of_coherentB hco r c p hcell
  rw [h1, h2]
  exact hrc

theorem entryFilter_pos (P : Move → Bool) (capMap : List ((ℤ × ℤ) × List Move)) :
    ∀ sm ∈ entryFilter P capMap, ∃ sm' ∈ capMap, sm.1 = sm'.1 := by
  intro sm hsm
  obtain ⟨sm0, hsm0, hf0⟩ := List.mem_filterMap.mp hsm
  by_cases he : (sm0.2.filter P).isEmpty
  · rw [if_pos he] at hf0
    exact absurd hf0 (by simp)
  · rw [if_neg he] at hf0
    have : sm = (sm0.1, sm0.2.filter P) := (Option.some.inj hf0).symm
    exact ⟨sm0, hsm0, by rw [this]⟩

/-- C5: majority capture on the 10×10 variant.  When captures exist, every
move returned by `getAllValidMoves` captures `maxCaptureCount` pieces (the
maximum over all available capture moves) and `maxKingsCount` kings (the
maximum over the moves tied on piece count); conversely every available
capture move attaining both maxima is retained. -/
theorem C5_majority_capture (b : BoardL) (color : Color)
    (hsize : b.boardSize = 10) (hco : coherentB b = true)
    (hcap : captureAvailable b color) :
    (∀ pm ∈ getAllValidMoves b color, ∀ m ∈ pm.2,
        m.captures.length = maxCaptureCount b color
        ∧ kingsCaptured b m = maxKingsCount b color)
    ∧ (∀ m ∈ availableCaptureMoves b color,
        m.captures.length = maxCaptureCount b color →
        kingsCaptured b m = maxKingsCount b color →
        ∃ pm ∈ getAllValidMoves b color, m ∈ pm.2) := by
  have h8 : ¬b.boardSize = 8 := by rw [hsize]; decide
  have hcmne : (movesMapsByStart b color).1 ≠ [] :=
    capMap_nonempty_of_captureAvailable hcap
  have hentne : ∀ sm ∈ (movesMapsByStart b color).1, sm.2 ≠ [] :=
    movesMaps_fold_entries_nonempty b color (getAllPieces b) ([], []) (by simp)
  -- the flattened capture map is nonempty
  have hAne : availableCaptureMoves b color ≠ [] := by
    obtain ⟨sm, hsm⟩ := List.exists_mem_of_ne_nil _ hcmne
    obtain ⟨m, hm⟩ := List.exists_mem_of_ne_nil _ (hentne sm hsm)
    exact List.ne_nil_of_mem (List.mem_flatMap.mpr ⟨sm, hsm, hm⟩)
  -- the piece-count maximum is attained
  have hattain : ∃ m0 ∈ availableCaptureMoves b color,
      m0.captures.length = maxCaptureCount b color := by
    have hmapne : ((availableCaptureMoves b color).map (·.captures.length)) ≠ [] := by
      simpa using hAne
    have := listMaxNat_mem hmapne
    obtain ⟨m0, hm0, he⟩ := List.mem_map.mp this
    exact ⟨m0, hm0, he⟩
  obtain ⟨m0, hm0A, hm0max⟩ := hattain
  have hm0tied : m0 ∈ tiedCaptureMoves b color :=
    List.mem_filter.mpr ⟨hm0A, by simpa using hm0max⟩
  have hBne : tiedCaptureMoves b color ≠ [] := List.ne_nil_of_mem hm0tied
  -- the kings maximum is attained
  have hkattain : ∃ m1 ∈ tiedCaptureMoves b color,
      kingsCaptured b m1 = maxKingsCount b color := by
    have hmapne : ((tiedCaptureMoves b color).map (kingsCaptured b)) ≠ [] := by
      simpa using hBne
    have := listMaxNat_mem hmapne
    obtain ⟨m1, hm1, he⟩ := List.mem_map.mp this
    exact ⟨m1, hm1, he⟩
  obtain ⟨m1, hm1B, hm1max⟩ := hkattain
  -- stage equality: flattening the count stage gives the tied moves
  have hflat1 : (entryFilter
        (fun mv => mv.captures.length == maxCaptureCount b color)
        (movesMapsByStart b color).1).flatMap (fun x => x.2)
      = tiedCaptureMoves b color :=
    entryFilter_flat _ _
  have hbcne : entryFilter
      (fun mv => mv.captures.length == maxCaptureCount b color)
      (movesMapsByStart b color).1 ≠ [] := by
    intro hnil
    rw [hnil] at hflat1
    exact hBne (by simpa using hflat1.symm)
  have hflat2 : (entryFilter
        (fun mv => kingsCaptured b mv == maxKingsCount b color)
        (entryFilter (fun mv => mv.captures.length == maxCaptureCount b color)
          (movesMapsByStart b color).1)).flatMap (fun x => x.2)
      = (tiedCaptureMoves b color).filter
          (fun mv => kingsCaptured b mv == maxKingsCount b color) := by
    rw [entryFilter_flat, hflat1]
  have hmajne : entryFilter
      (fun mv => kingsCaptured b mv == maxKingsCount b color)
      (entryFilter (fun mv => mv.captures.length == maxCaptureCount b color)
        (movesMapsByStart b color).1) ≠ [] := by
    intro hnil
    rw [hnil] at hflat2
    have : m1 ∈ (tiedCaptureMoves b color).filter
        (fun mv => kingsCaptured b mv == maxKingsCount b color) :=
      List.mem_filter.mpr ⟨hm1B, by simpa using hm1max⟩
    rw [← hflat2] at this
    exact absurd this (by simp)
  -- the by-start result is exactly the two-stage filter
  have hres : getAllValidMovesByStart b color
      = entryFilter (fun mv => kingsCaptured b mv == maxKingsCount b color)
          (entryFilter (fun mv => mv.captures.length == maxCaptureCount b color)
            (movesMapsByStart b color).1) := by
    simp only [getAllValidMovesByStart]
    rw [if_neg (by rw [List.isEmpty_iff]; exact hcmne), if_pos h8]
    simp only [filter_majority_captures]
    rw [if_neg (by rw [List.isEmpty_iff]; exact hAne)]
    rw [show listMaxNat (((movesMapsByStart b color).1.flatMap fun x => x.2).map
        (·.captures.length)) = maxCaptureCount b color from rfl]
    rw [if_neg (by rw [List.isEmpty_iff]; exact hbcne)]
    rw [hflat1]
    rw [show listMaxNat ((tiedCaptureMoves b color).map (kingsCaptured b))
        = maxKingsCount b color from rfl]
    rw [if_neg (by rw [List.isEmpty_iff]; exact hmajne)]
  constructor
  · intro pm hpm m hm
    obtain ⟨sm, hsm, heq⟩ := resolve_subset b _ pm hpm
    rw [hres] at hsm
    rw [heq] at hm
    obtain ⟨sm1, hsm1, hm1, hPk⟩ := entryFilter_mem _ _ sm hsm m hm
    obtain ⟨sm0, _, _, hPc⟩ := entryFilter_mem _ _ sm1 hsm1 m hm1
    exact ⟨by simpa using hPc, by simpa using hPk⟩
  · intro m hmA hlen hkings
    obtain ⟨sm0, hsm0, hm0⟩ := List.mem_flatMap.mp hmA
    obtain ⟨sm1, hsm1, hmm1⟩ :=
      entryFilter_retain (fun mv => mv.captures.length == maxCaptureCount b color)
        _ sm0 hsm0 m hm0 (by simpa using hlen)
    obtain ⟨sm2, hsm2, hmm2⟩ :=
      entryFilter_retain (fun mv => kingsCaptured b mv == maxKingsCount b color)
        _ sm1 hsm1 m hmm1 (by simpa using hkings)
    -- the entry's start square holds a piece, so resolution keeps it
    obtain ⟨sm1', hsm1', hp1⟩ := entryFilter_pos _ _ sm2 hsm2
    obtain ⟨sm0', hsm0', hp0⟩ := entryFilter_pos _ _ sm1' hsm1'
    have hpos := movesMaps_fold_positions b color (getAllPieces b) ([], []) sm0' hsm0'
    rcases hpos with ⟨p, hpmem, hppos⟩ | habs
    swap
    · exact absurd habs (by simp)
    have hgp : getPiece b p.row p.col = some p := getAllPieces_self_pos hco hpmem
    refine ⟨(p, sm2.2), ?_, hmm2⟩
    unfold getAllValidMoves
    rw [hres]
    refine List.mem_filterMap.mpr ⟨sm2, hsm2, ?_⟩
    rw [show sm2.1 = (p.row, p.col) from by rw [hp1, hp0, hppos]]
    simp [hgp]

/-- Witness for C5 at the seeded 10×10 majority-capture board. -/
theorem C5_witness :
    (bMaj.boardSize = 10 ∧ coherentB bMaj = true
      ∧ captureAvailable bMaj Color.white)
    ∧ (∀ pm ∈ getAllValidMoves bMaj Color.white, ∀ m ∈ pm.2,
        m.captures.length = maxCaptureCount bMaj Color.white
        ∧ kingsCaptured bMaj m = maxKingsCount bMaj Color.white) :=
  ⟨⟨rfl, by decide, by decide⟩,
   (C5_majority_capture bMaj Color.white rfl (by decide) (by decide)).1⟩

/-- C6: evaluator antisymmetry — for every board, the score from White's
perspective is exactly the negation of the score from Black's perspective
(in exact arithmetic; the implementation's float evaluation is within the
spec's 1e−6 tolerance of this identity). -/
theorem C6_evaluator_antisymmetry (b : BoardL) :
    evaluate_board b Color.white = -evaluate_board b Color.black := by
  simp only [evaluate_board, Color.opponent]
  ring

/-! ### Support lemmas for the driver claims -/

theorem movesMaps_fold_quiet_nonempty (b : BoardL) (color : Color) :
    ∀ (ps : List PieceL) (acc : _ × _),
      (∀ sm ∈ acc.2, sm.2 ≠ []) →
      ∀ sm ∈ (ps.foldl (movesMapsStep b color) acc).2, sm.2 ≠ [] := by
  intro ps
  induction ps with
  | nil => intro acc h; exact h
  | cons p rest ih =>
    intro acc h
    refine ih (movesMapsStep b color acc p) ?_
    simp only [movesMapsStep]
    split_ifs with h1 h2 h3
    · exact h
    · exact h
    · intro sm hsm
      rcases List.mem_append.mp hsm with hold | hnew
      · exact h sm hold
      · have heq : sm = ((p.row, p.col), possibleMoves b p) := by simpa using hnew
        rw [heq]
        intro hnil
        simp only at hnil
        rw [hnil] at h2
        exact h2 (by simp)
    · exact h

theorem entryFilter_entries_nonempty (P : Move → Bool)
    (l : List ((ℤ × ℤ) × List Move)) :
    ∀ sm ∈ entryFilter P l, sm.2 ≠ [] := by
  intro sm hsm
  obtain ⟨sm0, _, hf0⟩ := List.mem_filterMap.mp hsm
  by_cases he : (sm0.2.filter P).isEmpty
  · rw [if_pos he] at hf0
    exact absurd hf0 (by simp)
  · rw [if_neg he] at hf0
    have : sm = (sm0.1, sm0.2.filter P) := (Option.some.inj hf0).symm
    rw [this]
    intro hnil
    simp only at hnil
    rw [hnil] at he
    exact he (by simp)

theorem byStart_entries_nonempty (b : BoardL) (color : Color) :
    ∀ sm ∈ getAllValidMovesByStart b color, sm.2 ≠ [] := by
  have hcap := movesMaps_fold_entries_nonempty b color (getAllPieces b) ([], [])
    (by simp)
  have hquiet := movesMaps_fold_quiet_nonempty b color (getAllPieces b) ([], [])
    (by simp)
  intro sm hsm
  simp only [getAllValidMovesByStart] at hsm
  split_ifs at hsm with h1 h2
  · exact hquiet sm hsm
  · simp only [filter_majority_captures] at hsm
    split_ifs at hsm with h3 h4 h5
    · exact hcap sm hsm
    · exact hcap sm hsm
    · exact entryFilter_entries_nonempty _ _ sm hsm
    · exact entryFilter_entries_nonempty _ _ sm hsm
  · exact hcap sm hsm

theorem getAllValidMoves_entries_nonempty (b : BoardL) (color : Color) :
    ∀ pm ∈ getAllValidMoves b color, pm.2 ≠ [] := by
  intro pm hpm
  obtain ⟨sm, hsm, heq⟩ := resolve_subset b _ pm hpm
  rw [heq]
  exact byStart_entries_nonempty b color sm hsm

theorem removeFirstTT_length (t : Move) :
    ∀ l : List (PieceL × Move),
      (removeFirstTT t l).1.length + (removeFirstTT t l).2.length = l.length := by
  intro l
  induction l with
  | nil => rfl
  | cons pm rest ih =>
    simp only [removeFirstTT]
    split_ifs with h
    · simp only [List.length_cons, List.length_nil]
      omega
    · simp only [List.length_cons]
      omega

theorem length_insertStable (le : α → α → Bool) (x : α) :
    ∀ l : List α, (insertStable le x l).length = l.length + 1 := by
  intro l
  induction l with
  | nil => rfl
  | cons y ys ih =>
    simp only [insertStable]
    split_ifs with h
    · simp
    · simp only [List.length_cons, ih]

theorem length_sortStable (le : α → α → Bool) :
    ∀ l : List α, (sortStable le l).length = l.length := by
  intro l
  induction l with
  | nil => rfl
  | cons x xs ih =>
    simp only [sortStable, length_insertStable, ih, List.length_cons]

theorem order_moves_length (movesMap : List (PieceL × List Move)) (boardSize : ℤ)
    (f1 f2 f3 f4 f5 : Bool) (ttMove : Option Move) (killers : List Move)
    (history butterfly : ℤ × ℤ × ℤ × ℤ × ℕ → ℕ) :
    (order_moves movesMap boardSize f1 f2 f3 f4 f5 ttMove killers
        history butterfly).length
      = (movesMap.flatMap fun pm => pm.2.map fun m => (pm.1, m)).length := by
  simp only [order_moves]
  have hpr : ∀ pr : List (PieceL × Move) × List (PieceL × Move),
      pr = (match ttMove with
        | none => (([] : List (PieceL × Move)),
            movesMap.flatMap fun pm => pm.2.map fun m => (pm.1, m))
        | some t => removeFirstTT t
            (movesMap.flatMap fun pm => pm.2.map fun m => (pm.1, m))) →
      pr.1.length + pr.2.length
        = (movesMap.flatMap fun pm => pm.2.map fun m => (pm.1, m)).length := by
    intro pr hpr
    cases ttMove with
    | none => rw [hpr]; simp
    | some t => rw [hpr]; exact removeFirstTT_length t _
  split_ifs <;>
    first
      | (rw [List.length_append, length_sortStable]; exact hpr _ rfl)
      | (rw [List.length_append]; exact hpr _ rfl)
      | (rw [List.length_append, List.length_map, length_sortStable,
          List.length_map]; exact hpr _ rfl)

theorem bool_and_left {a b : Bool} (h : (a && b) = true) : a = true := by
  cases a
  · exact absurd h (by simp)
  · rfl

theorem searchRootGo_isSome (ab : Bool) (checkT : ℕ → Bool) (sub : ℕ → Option ℚ)
    (beta : XQ) :
    ∀ (l : List (PieceL × Move)) (i : ℕ) (bestC : Option (PieceL × Move))
      (bestS alpha : XQ), bestC.isSome →
      (searchRootGo ab checkT sub beta l i bestC bestS alpha).choice.isSome := by
  intro l
  induction l with
  | nil => intro i bestC bestS alpha h; exact h
  | cons pm rest ih =>
    intro i bestC bestS alpha h
    cases hs : sub i with
    | none =>
      simp only [searchRootGo, hs]
      split_ifs <;> exact h
    | some score =>
      simp only [searchRootGo, hs]
      split_ifs <;>
        first
          | exact h
          | rfl
          | exact ih _ _ _ _ rfl
          | exact ih _ _ _ _ h

theorem searchRoot_isSome (ab : Bool) (checkT : ℕ → Bool) (sub : ℕ → Option ℚ)
    (rootMoves : List (PieceL × Move)) (alpha beta : XQ)
    (h : rootMoves ≠ []) :
    (searchRoot ab checkT sub rootMoves alpha beta).choice.isSome := by
  unfold searchRoot
  apply searchRootGo_isSome
  cases rootMoves with
  | nil => exact absurd rfl h
  | cons pm rest => rfl

theorem aspirationLoop_isSome (o : SearchOracle) (dl ab useAsp : Bool)
    (rootMoves : List (PieceL × Move)) (d : ℕ) (bestS : XQ)
    (h : rootMoves ≠ []) :
    ∀ (fuel attempt : ℕ) (window : ℚ) (alpha beta : XQ),
      (aspirationLoop o dl ab useAsp rootMoves d bestS fuel attempt window
        alpha beta).choice.isSome := by
  intro fuel
  induction fuel with
  | zero =>
    intro attempt window alpha beta
    exact searchRoot_isSome _ _ _ _ _ _ h
  | succ n ih =>
    intro attempt window alpha beta
    simp only [aspirationLoop]
    split_ifs with h1 h2 h3
    · exact searchRoot_isSome _ _ _ _ _ _ h
    · exact ih _ _ _ _
    · exact ih _ _ _ _
    · exact searchRoot_isSome _ _ _ _ _ _ h

theorem idLoopGo_preserve (o : SearchOracle) (p : MinimaxParams) (dl : Bool)
    (rootMoves : List (PieceL × Move)) :
    ∀ (remaining d : ℕ) (bestC : Option (PieceL × Move)) (bestS : XQ),
      bestC.isSome →
      (idLoopGo o p dl rootMoves remaining d bestC bestS).isSome := by
  intro remaining
  induction remaining with
  | zero => intro d bestC bestS h; exact h
  | succ n ih =>
    intro d bestC bestS h
    simp only [idLoopGo]
    split_ifs <;>
      first
        | exact h
        | exact bool_and_left (by assumption)
        | exact ih _ _ _ h
        | exact ih _ _ _ (bool_and_left (by assumption))

theorem idLoopGo_top (o : SearchOracle) (p : MinimaxParams) (dl : Bool)
    (rootMoves : List (PieceL × Move)) (h : rootMoves ≠ []) (n d : ℕ) (bestS : XQ) :
    (idLoopGo o p dl rootMoves (n + 1) d none bestS).isSome := by
  have hres := aspirationLoop_isSome o dl p.useAlphaBeta p.useAspiration rootMoves d
    bestS h
  simp only [idLoopGo, Option.isNone_none, Bool.or_true, Bool.and_true]
  split_ifs <;>
    first
      | assumption
      | exact idLoopGo_preserve o p dl rootMoves n _ _ _ (by assumption)
      | exact absurd (hres _ _ _ _ _) (by assumption)

theorem pairs_ne_nil (b : BoardL) (player : Color)
    (h : getAllValidMoves b player ≠ []) :
    (getAllValidMoves b player).flatMap
      (fun pm => pm.2.map fun m => (pm.1, m)) ≠ [] := by
  cases hmm : getAllValidMoves b player with
  | nil => exact absurd hmm h
  | cons pm rest =>
    have hne : pm.2 ≠ [] :=
      getAllValidMoves_entries_nonempty b player pm (hmm ▸ List.mem_cons_self _ _)
    simp only [List.flatMap_cons]
    intro hnil
    apply hne
    have h1 : pm.2.map (fun m => (pm.1, m)) = [] :=
      (List.append_eq_nil.mp hnil).1
    exact List.map_eq_nil_iff.mp h1

theorem rootOrderedMoves_ne_nil (b : BoardL) (player : Color) (p : MinimaxParams)
    (ttMove : Option Move) (h : getAllValidMoves b player ≠ []) :
    rootOrderedMoves b player p ttMove ≠ [] := by
  have hlen := order_moves_length (getAllValidMoves b player) b.boardSize
    p.useMoveOrdering p.useKillerMoves p.deterministicOrdering p.useHistory
    p.useButterfly ttMove [] (fun _ => 0) (fun _ => 1)
  intro hnil
  rw [rootOrderedMoves] at hnil
  rw [hnil] at hlen
  exact pairs_ne_nil b player h
    (List.length_eq_zero.mp (by simpa using hlen.symm))

theorem searchRoot_timeUpFirst (ab : Bool) (checkT : ℕ → Bool) (sub : ℕ → Option ℚ)
    (pm : PieceL × Move) (rest : List (PieceL × Move)) (alpha beta : XQ)
    (h0 : checkT 0 = true) :
    searchRoot ab checkT sub (pm :: rest) alpha beta
      = ⟨some pm, XQ.ninf, false⟩ := by
  simp only [searchRoot, searchRootGo, h0, if_true, List.head?_cons]

theorem searchRoot_allUp (ab : Bool) (d a : ℕ) (pm : PieceL × Move)
    (rest : List (PieceL × Move)) (alpha beta : XQ) :
    searchRoot ab (fun i => true && allTimeUpOracle.rootCheck d a i)
      (fun i => if true && allTimeUpOracle.subtreeTimeUp d a i then none
        else some (allTimeUpOracle.subtreeScore d a i)) (pm :: rest) alpha beta
      = ⟨some pm, XQ.ninf, false⟩ :=
  searchRoot_timeUpFirst ab _ _ pm rest alpha beta rfl

theorem aspirationLoop_allUp (ab useAsp : Bool) (pm : PieceL × Move)
    (rest : List (PieceL × Move)) (d : ℕ) (bestS : XQ) :
    ∀ (fuel attempt : ℕ) (window : ℚ) (alpha beta : XQ),
      aspirationLoop allTimeUpOracle true ab useAsp (pm :: rest) d bestS fuel
        attempt window alpha beta = ⟨some pm, XQ.ninf, false⟩ := by
  intro fuel attempt window alpha beta
  cases fuel with
  | zero =>
    simp only [aspirationLoop, searchRoot_allUp]
  | succ n =>
    simp only [aspirationLoop, searchRoot_allUp, Bool.not_false, Bool.or_true,
      if_true]

theorem idLoopGo_allUp (p : MinimaxParams) (pm : PieceL × Move)
    (rest : List (PieceL × Move)) (n d : ℕ) (bestS : XQ) :
    idLoopGo allTimeUpOracle p true (pm :: rest) (n + 1) d none bestS = some pm := by
  simp only [idLoopGo, aspirationLoop_allUp]
  rfl

/-- C7: `select_move` returns `None` exactly when the side to move has no
legal moves; whenever a legal move exists it returns some (piece, move) pair,
and even if the deadline has already expired at every timing check it falls
back to the first root move in order. -/
theorem C7_select_move_total (o : SearchOracle) (p : MinimaxParams) (b : BoardL)
    (player : Color) (ttMove : Option Move) (hd : 0 < p.depth) :
    (select_move o p b player ttMove = .ok none
        ↔ getAllValidMoves b player = [])
    ∧ (getAllValidMoves b player ≠ [] →
        ∃ pr, select_move o p b player ttMove = .ok (some pr))
    ∧ (getAllValidMoves b player ≠ [] → 0 < p.timeLimitMs →
        select_move allTimeUpOracle p b player ttMove
          = .ok (rootOrderedMoves b player p ttMove).head?) := by
  have hd' : ¬ p.depth ≤ 0 := by omega
  by_cases hmm : getAllValidMoves b player = []
  · have hsel0 : ∀ o' : SearchOracle,
        select_move o' p b player ttMove = .ok none := by
      intro o'
      simp [select_move, hd', hmm]
    exact ⟨⟨fun _ => hmm, fun _ => hsel0 o⟩, fun hne => absurd hmm hne,
      fun hne _ => absurd hmm hne⟩
  · have hro : rootOrderedMoves b player p ttMove ≠ [] :=
      rootOrderedMoves_ne_nil b player p ttMove hmm
    have hE1 : (getAllValidMoves b player).isEmpty = false := by
      cases hx : (getAllValidMoves b player).isEmpty
      · rfl
      · exact absurd (List.isEmpty_iff.mp hx) hmm
    have hE2 : (rootOrderedMoves b player p ttMove).isEmpty = false := by
      cases hx : (rootOrderedMoves b player p ttMove).isEmpty
      · rfl
      · exact absurd (List.isEmpty_iff.mp hx) hro
    obtain ⟨k, hk⟩ : ∃ k, p.depth.toNat = k + 1 := ⟨p.depth.toNat - 1, by omega⟩
    have hsome : ∀ o' : SearchOracle,
        ∃ pr, select_move o' p b player ttMove = .ok (some pr) := by
      intro o'
      simp only [select_move, if_neg hd', hE1, hE2, Bool.false_eq_true,
        if_false]
      by_cases hid : p.useID
      · rw [if_pos hid, hk]
        obtain ⟨pr, hpr⟩ := Option.isSome_iff_exists.mp
          (idLoopGo_top o' p (decide (0 < p.timeLimitMs))
            (rootOrderedMoves b player p ttMove) hro k 1 XQ.ninf)
        exact ⟨pr, by rw [hpr]⟩
      · rw [if_neg hid]
        obtain ⟨pr, hpr⟩ := Option.isSome_iff_exists.mp
          (searchRootGo_isSome p.useAlphaBeta _ _ XQ.pinf
            (rootOrderedMoves b player p ttMove) 0
            (rootOrderedMoves b player p ttMove).head? XQ.ninf XQ.ninf
            (by
              cases hc : rootOrderedMoves b player p ttMove with
              | nil => exact absurd hc hro
              | cons q qs => rfl))
        refine ⟨pr, ?_⟩
        have : searchRoot p.useAlphaBeta
            (fun i => decide (0 < p.timeLimitMs) && o'.rootCheck 0 0 i)
            (fun i => if decide (0 < p.timeLimitMs) && o'.subtreeTimeUp 0 0 i
              then none else some (o'.subtreeScore 0 0 i))
            (rootOrderedMoves b player p ttMove) XQ.ninf XQ.pinf
            = searchRootGo p.useAlphaBeta
            (fun i => decide (0 < p.timeLimitMs) && o'.rootCheck 0 0 i)
            (fun i => if decide (0 < p.timeLimitMs) && o'.subtreeTimeUp 0 0 i
              then none else some (o'.subtreeScore 0 0 i)) XQ.pinf
            (rootOrderedMoves b player p ttMove) 0
            (rootOrderedMoves b player p ttMove).head? XQ.ninf XQ.ninf := rfl
        rw [this, hpr]
    refine ⟨⟨?_, fun hmm' => absurd hmm' hmm⟩, fun _ => hsome o, ?_⟩
    · intro heq
      obtain ⟨pr, hpr⟩ := hsome o
      rw [heq] at hpr
      exact absurd (Except.ok.inj hpr) (by simp)
    · intro _ htl
      obtain ⟨pm, rest, hcons⟩ := List.exists_cons_of_ne_nil hro
      have hdl : (decide (0 < p.timeLimitMs)) = true := decide_eq_true htl
      simp only [select_move, if_neg hd', hE1, hE2, Bool.false_eq_true,
        if_false, hdl]
      by_cases hid : p.useID
      · rw [if_pos hid, hk, hcons, idLoopGo_allUp, List.head?_cons]
      · rw [if_neg hid, hcons, searchRoot_allUp, List.head?_cons]

/-- Witness for C7 at a concrete fixed-depth parameter set, the two-man
board `b0` and the expired-deadline oracle. -/
theorem C7_witness :
    0 < pC7.depth
    ∧ ((select_move allTimeUpOracle pC7 b0 Color.white none = .ok none
          ↔ getAllValidMoves b0 Color.white = [])
      ∧ (getAllValidMoves b0 Color.white ≠ [] →
          ∃ pr, select_move allTimeUpOracle pC7 b0 Color.white none
            = .ok (some pr))
      ∧ (getAllValidMoves b0 Color.white ≠ [] → 0 < pC7.timeLimitMs →
          select_move allTimeUpOracle pC7 b0 Color.white none
            = .ok (rootOrderedMoves b0 Color.white pC7 none).head?)) :=
  ⟨by decide,
    C7_select_move_total allTimeUpOracle pC7 b0 Color.white none (by decide)⟩

unseal Rat.add Rat.mul Rat.inv in

/-- C8: with iterative deepening disabled the fixed-depth result still
depends on `time_limit_ms`: the deadline is wired whenever
`time_limit_ms > 0` and handed to the root search, so the same position
yields different moves for `time_limit_ms = 10` and `time_limit_ms = 0` on
one and the same run — refuting the claim that no deadline applies. -/
theorem C8_deadline_leaks_fixed_depth :
    select_move oLate (pFixed 10) b0 Color.white none
      ≠ select_move oLate (pFixed 0) b0 Color.white none := by decide

/-- C9: the MCTS leaf normalization `_normalize_eval` divides by the fixed
constant 1000 with no board-size parameter at all, so the same raw score
normalizes identically on 8×8 and 10×10 — refuting the size-dependent
denominator; concretely it maps 1 to 1/1000 and clamps ±2000 to ±1. -/
theorem C9_normalize_fixed_constant :
    normalize_eval 1 = 1 / 1000 ∧ normalize_eval 2000 = 1
      ∧ normalize_eval (-2000) = -1 := by
  refine ⟨?_, ?_, ?_⟩ <;> norm_num [normalize_eval]

end Checkers
